import Mathlib

/-!
A verification development for the rusty_malloc allocator (crate rusty_malloc,
files src/header.rs, src/util.rs, src/freelist.rs, src/growers.rs,
src/allocators/raw_malloc/mod.rs, src/allocators/raw_malloc/util.rs).

The machine is 64-bit: usize is modelled as Nat together with explicit
overflow checks against UMAX = 2^64 - 1, exactly where the source performs
them (checked_add, find_divisible, the isize cast in augment_size).
The relevant constants on such a machine are
HEADER_SIZE = HEADER_ALIGN = 8 (one machine word),
NODE_SIZE = 16, NODE_ALIGN = 8 (a freelist Node is two words),
BLOCK_CONTENT_MIN_SIZE = 16, BLOCK_CONTENT_MIN_ALIGN = 8, BLOCK_MIN_SIZE = 24.

The heap of RawMalloc is a contiguous range [base, end) partitioned into
blocks, each one word of header followed by content. The state of the
allocator is modelled as the list of blocks of that partition (content size
and free bit for each), together with the freelist as the list of node
addresses in linked-list order (head first), and the base address. Addresses
are recovered as prefix sums: block i starts at
base + sum of (HEADER_SIZE + content size) over blocks before i,
which is exactly how the machine walks the partition. The grower is
modelled by its observable responses: each allocation-path operation takes
the response function of the grower (request size to granted amount, none
for failure); the zero-size probe of a conforming grower returns the
current end, which in this representation is base plus the total extent of
the blocks, since the engine always covers every granted byte with blocks.

Every operation below is translated from the body of the corresponding
Rust function, keeping its control flow, checks and order of writes;
loops whose bound lives in the data (freelist walk, forward coalescing,
try_adjust) recurse on fuel that dominates their iteration count, and the
scan of find_place uses fuel covering the whole address space, mirroring
the termination argument of the source (the scanned address strictly
increases and is bounded by usize::MAX). Where the source has undefined
behaviour (foreign pointers, double free), the model guards and leaves the
state unchanged; all theorems below only evaluate the model inside the
preconditions of the source.
-/

namespace RustyMalloc

/-- usize::MAX on the 64-bit machine. -/
def UMAX : Nat := 2 ^ 64 - 1

/-- isize::MAX on the 64-bit machine. -/
def ISIZE_MAX : Nat := 2 ^ 63 - 1

/-- size_of Header, one machine word (src/header.rs, HEADER_SIZE). -/
def HEADER_SIZE : Nat := 8

/-- align_of Header (src/header.rs, HEADER_ALIGN). -/
def HEADER_ALIGN : Nat := 8

/-- size_of a freelist Node, two words (src/freelist.rs, NODE_SIZE). -/
def NODE_SIZE : Nat := 16

/-- align_of a freelist Node (src/freelist.rs, NODE_ALIGN). -/
def NODE_ALIGN : Nat := 8

/-- src/allocators/raw_malloc/mod.rs, BLOCK_CONTENT_MIN_SIZE = NODE_SIZE. -/
def BLOCK_CONTENT_MIN_SIZE : Nat := NODE_SIZE

/-- src/allocators/raw_malloc/mod.rs, BLOCK_CONTENT_MIN_ALIGN = NODE_ALIGN. -/
def BLOCK_CONTENT_MIN_ALIGN : Nat := NODE_ALIGN

/-- src/allocators/raw_malloc/mod.rs, BLOCK_MIN_SIZE. -/
def BLOCK_MIN_SIZE : Nat := HEADER_SIZE + BLOCK_CONTENT_MIN_SIZE

/-- src/util.rs, checked_add: some (ptr + offset) unless the sum leaves the
address space. The source guard is ptr as usize <= usize::MAX - offset. -/
def checked_add (ptr offset : Nat) : Option Nat :=
  if ptr ≤ UMAX - offset then some (ptr + offset) else none

/-- The align_offset of a byte pointer p for alignment a:
the distance to the next a-aligned address. -/
def align_offset (p a : Nat) : Nat := (a - p % a) % a

/-- src/util.rs, find_aligned: smallest a-aligned address at or above p,
none if it would leave the address space. -/
def find_aligned (p a : Nat) : Option Nat :=
  if UMAX - align_offset p a < p then none else some (p + align_offset p a)

/-- src/allocators/raw_malloc/util.rs, find_divisible: the smallest z with
x <= z and y dividing z, none on usize overflow. -/
def find_divisible (x y : Nat) : Option Nat :=
  if x % y = 0 then some x else checked_add (x / y * y) y

/-- src/allocators/raw_malloc/util.rs, augment_size. The source accepts the
result new_size of find_divisible only when new_size as isize > 0, which on
the 64-bit machine says 0 < new_size and new_size <= isize::MAX. -/
def augment_size (size : Nat) : Option Nat :=
  match find_divisible (max size BLOCK_CONTENT_MIN_SIZE) HEADER_SIZE with
  | some new_size =>
      if 0 < new_size ∧ new_size ≤ ISIZE_MAX then some new_size else none
  | none => none

/-- src/allocators/raw_malloc/util.rs, augment_layout, returning the
augmented (size, align) pair. -/
def augment_layout (size align : Nat) : Option (Nat × Nat) :=
  match augment_size size with
  | some obj_size => some (obj_size, max align BLOCK_CONTENT_MIN_ALIGN)
  | none => none

/-- The loop of find_place (src/allocators/raw_malloc/util.rs). The scanned
address obj strictly increases on every pass, and the source returns none
once it reaches usize::MAX, so the fuel UMAX + 1 given below dominates the
iteration count and the fuel-out branch is unreachable from find_place. -/
def find_place_loop (block_start a : Nat) : Nat → Nat → Option Nat
  | _, 0 => none
  | obj, fuel + 1 =>
    let dist := obj - block_start
    if dist = HEADER_SIZE ∨ HEADER_SIZE + BLOCK_MIN_SIZE ≤ dist then some obj
    else if obj = UMAX then none
    else
      match find_aligned (obj + 1) a with
      | some next => find_place_loop block_start a next fuel
      | none => none

/-- src/allocators/raw_malloc/util.rs, find_place: first a-aligned address
whose distance from block_start is HEADER_SIZE or at least
HEADER_SIZE + BLOCK_MIN_SIZE, scanning by advancing one byte and
re-aligning. -/
def find_place (block_start a : Nat) : Option Nat :=
  find_place_loop block_start a block_start (UMAX + 1)

/-- src/header.rs, Header: one machine word whose least significant bit
tags the block as free; the remaining bits hold the content size. -/
structure Header where
  __content_size : Nat
  deriving DecidableEq

/-- src/header.rs, Header::tagged. -/
def Header.tagged (h : Header) : Header := ⟨h.__content_size ||| 1⟩

/-- src/header.rs, Header::untagged; the mask !1 is UMAX - 1 on the 64-bit
machine. -/
def Header.untagged (h : Header) : Header := ⟨h.__content_size &&& (UMAX - 1)⟩

/-- src/header.rs, Header::is_tagged. -/
def Header.is_tagged (h : Header) : Bool := h.__content_size &&& 1 ≠ 0

/-- src/header.rs, Header::content_size. -/
def Header.content_size (h : Header) : Nat := h.untagged.__content_size

/-- src/header.rs, Header::new_unchecked. The debug_assert of the source
requires content_size to be even; the definition itself (release build)
stores the word regardless, which is what this function models. -/
def Header.new_unchecked (content_size : Nat) (is_free : Bool) : Header :=
  match is_free with
  | true => (Header.mk content_size).tagged
  | false => Header.mk content_size

/-- One block of the heap partition: its content size (the header word with
the tag bit removed) and its free bit (the tag). A block occupies
HEADER_SIZE + csize bytes. -/
structure Block where
  csize : Nat
  free : Bool
  deriving DecidableEq

/-- The number of heap bytes a block covers, header included. -/
def extent (b : Block) : Nat := HEADER_SIZE + b.csize

/-- Total byte extent of a list of blocks. -/
def extSum (bs : List Block) : Nat := (bs.map extent).sum

/-- The allocator state: heap base address, the block partition in address
order, and the freelist as the node addresses in list order (head first). -/
structure St where
  base : Nat
  blocks : List Block
  fl : List Nat
  deriving DecidableEq

/-- Current heap end: the partition covers [base, end) without gaps. -/
def heapEnd (s : St) : Nat := s.base + extSum s.blocks

/-- Start address of block i of the partition (prefix sum of extents). -/
def addrAt (base : Nat) (bs : List Block) (i : Nat) : Nat :=
  base + extSum (bs.take i)

/-- Index of the block whose start address is addr, walking the partition
from base exactly like the machine walks headers. -/
def blockIdxAt : Nat → List Block → Nat → Option Nat
  | _, [], _ => none
  | base, b :: rest, addr =>
    if addr = base then some 0
    else (blockIdxAt (base + extent b) rest addr).map (· + 1)

/-- The block of a partition list starting at addr, if any. -/
def blockAtL (base : Nat) (bs : List Block) (addr : Nat) : Option Block :=
  match blockIdxAt base bs addr with
  | some i => bs[i]?
  | none => none

/-- The block of the partition starting at addr, if any. -/
def blockAt (s : St) (addr : Nat) : Option Block :=
  blockAtL s.base s.blocks addr

/-- Replace block i of the partition by a run of blocks covering its range
(or, for callers placing into freshly grown space, append instead). -/
def replaceIdx (bs : List Block) (i : Nat) (new : List Block) : List Block :=
  bs.take i ++ new ++ bs.drop (i + 1)

/-- Apply a sequence of Freelist::push_front operations (src/freelist.rs):
each one prepends the node address at the head. -/
def pushAll (fl : List Nat) (pushes : List Nat) : List Nat :=
  pushes.foldl (fun l n => n :: l) fl

/-- The outcome of place_raw (src/allocators/raw_malloc/mod.rs): the blocks
written over [block_start, block_end) in address order, the node addresses
pushed onto the freelist in push order (left padding first, then right
padding), and the raw writes (address, length) place_raw performs: a
HEADER_SIZE header write for each created block and a NODE_SIZE node write
for each free padding block pushed via Freelist::push_front, listed in the
order the source performs them. -/
structure PlacePieces where
  newBlocks : List Block
  pushes : List Nat
  writes : List (Nat × Nat)
  deriving DecidableEq

/-- src/allocators/raw_malloc/mod.rs, place_raw. Left padding is created
when the gap between block_start and obj_start differs from HEADER_SIZE;
right padding when at least BLOCK_MIN_SIZE bytes remain past the object;
otherwise those leftover bytes are absorbed into the object. The object
header is written at obj_start - HEADER_SIZE. -/
def place_pieces (block_start block_end obj_start obj_size : Nat) : PlacePieces :=
  let dist := obj_start - block_start
  let obj_end := obj_start + obj_size
  let hasLeft := dist ≠ HEADER_SIZE
  let leftBlocks : List Block :=
    if hasLeft then [⟨dist - 2 * HEADER_SIZE, true⟩] else []
  let leftPushes : List Nat := if hasLeft then [block_start + HEADER_SIZE] else []
  let leftWrites : List (Nat × Nat) :=
    if hasLeft then [(block_start, HEADER_SIZE), (block_start + HEADER_SIZE, NODE_SIZE)]
    else []
  let gap := block_end - obj_end
  let hasRight := BLOCK_MIN_SIZE ≤ gap
  let rightBlocks : List Block := if hasRight then [⟨gap - HEADER_SIZE, true⟩] else []
  let rightPushes : List Nat := if hasRight then [obj_end + HEADER_SIZE] else []
  let rightWrites : List (Nat × Nat) :=
    if hasRight then [(obj_end, HEADER_SIZE), (obj_end + HEADER_SIZE, NODE_SIZE)]
    else []
  let objSize := if hasRight then obj_size else block_end - obj_start
  { newBlocks := leftBlocks ++ ⟨objSize, false⟩ :: rightBlocks
    pushes := leftPushes ++ rightPushes
    writes := leftWrites ++ rightWrites ++ [(obj_start - HEADER_SIZE, HEADER_SIZE)] }

/-- src/allocators/raw_malloc/mod.rs, try_place: locate the free block at
block_start, search a placement address with find_place, check the object
fits before block_end, then remove the node of the block from the freelist
and rewrite the range of the block with place_raw. Failures return before
any mutation. -/
def try_place (s : St) (block_start obj_size obj_align : Nat) : Option Nat × St :=
  match blockIdxAt s.base s.blocks block_start with
  | none => (none, s)
  | some i =>
    match s.blocks[i]? with
    | none => (none, s)
    | some b =>
      let block_end := block_start + HEADER_SIZE + b.csize
      match find_place block_start obj_align with
      | none => (none, s)
      | some obj_start =>
        match checked_add obj_start obj_size with
        | some p =>
          if p ≤ block_end then
            let pieces := place_pieces block_start block_end obj_start obj_size
            (some obj_start,
              ⟨s.base, replaceIdx s.blocks i pieces.newBlocks,
                pushAll (s.fl.erase (block_start + HEADER_SIZE)) pieces.pushes⟩)
          else (none, s)
        | none => (none, s)

/-- The loop of merge_subsequent_nodes (src/allocators/raw_malloc/mod.rs)
acting on the block at index i: while the address just past the block is
not the heap end and the block there is tagged free, remove the node of
that block from the freelist and extend the content size of block i by
HEADER_SIZE plus the absorbed content size (the absorbed block ceases to
exist as partition entry). Fuel s.blocks.length dominates the iteration
count. -/
def merge_loop (s : St) (i : Nat) : Nat → St
  | 0 => s
  | fuel + 1 =>
    match s.blocks[i]? with
    | none => s
    | some b =>
      let next_block_start := addrAt s.base s.blocks i + HEADER_SIZE + b.csize
      if next_block_start = heapEnd s then s
      else
        match blockIdxAt s.base s.blocks next_block_start with
        | none => s
        | some j =>
          match s.blocks[j]? with
          | none => s
          | some c =>
            if c.free then
              merge_loop
                ⟨s.base,
                  (replaceIdx s.blocks i [⟨b.csize + HEADER_SIZE + c.csize, b.free⟩]).eraseIdx j,
                  s.fl.erase (next_block_start + HEADER_SIZE)⟩
                i fuel
            else s

/-- src/allocators/raw_malloc/mod.rs, merge_subsequent_nodes: coalesce the
block owning the node at address node with the free blocks following it. -/
def merge_subsequent_nodes (s : St) (node : Nat) : St :=
  match blockIdxAt s.base s.blocks (node - HEADER_SIZE) with
  | none => s
  | some i => merge_loop s i s.blocks.length

/-- The freelist node addresses of a run of consecutive blocks whose first
block starts at address start: each block of the run contributes the
address just past its header. Used to state what forward coalescing
removes from the freelist. -/
def runNodes : Nat → List Block → List Nat
  | _, [] => []
  | start, c :: cs => (start + HEADER_SIZE) :: runNodes (start + extent c) cs

/-- The node following p in freelist order, as the machine reads p.next. -/
def next_after : List Nat → Nat → Option Nat
  | [], _ => none
  | a :: rest, p => if a = p then rest.head? else next_after rest p

/-- The loop of place_in_first_free_block (src/allocators/raw_malloc/mod.rs):
at each visited node first coalesce forward, then attempt try_place on the
block of the node; on failure continue with the next node of the (possibly
shortened) freelist. Fuel s.fl.length dominates the visit count. -/
def walk_loop (obj_size obj_align : Nat) : St → Nat → Nat → Option Nat × St
  | s, _, 0 => (none, s)
  | s, p, fuel + 1 =>
    let s1 := merge_subsequent_nodes s p
    match try_place s1 (p - HEADER_SIZE) obj_size obj_align with
    | (some obj, s2) => (some obj, s2)
    | (none, s2) =>
      match next_after s2.fl p with
      | some q => walk_loop obj_size obj_align s2 q fuel
      | none => (none, s2)

/-- src/allocators/raw_malloc/mod.rs, place_in_first_free_block. -/
def place_in_first_free_block (s : St) (obj_size obj_align : Nat) : Option Nat × St :=
  match s.fl.head? with
  | none => (none, s)
  | some p => walk_loop obj_size obj_align s p s.fl.length

/-- src/allocators/raw_malloc/mod.rs, grow then place_raw as performed by
grow_and_place: probe the current end, find the placement address past it,
compute the growth request, ask the grower (modelled by its response
function grant), and cover [end, end + granted) with blocks via place_raw. -/
def grow_and_place (s : St) (obj_size obj_align : Nat) (grant : Nat → Option Nat) :
    Option Nat × St :=
  let old_end := heapEnd s
  match find_place old_end obj_align with
  | none => (none, s)
  | some obj_start =>
    match checked_add obj_start obj_size with
    | none => (none, s)
    | some obj_end =>
      match grant (obj_end - old_end) with
      | none => (none, s)
      | some granted =>
        let pieces := place_pieces old_end (old_end + granted) obj_start obj_size
        (some obj_start,
          ⟨s.base, s.blocks ++ pieces.newBlocks, pushAll s.fl pieces.pushes⟩)

/-- src/allocators/raw_malloc/mod.rs, __alloc: augment the layout, scan the
freelist, otherwise grow and place. -/
def rm_alloc (s : St) (size align : Nat) (grant : Nat → Option Nat) : Option Nat × St :=
  match augment_layout size align with
  | none => (none, s)
  | some (obj_size, obj_align) =>
    match place_in_first_free_block s obj_size obj_align with
    | (some p, s1) => (some p, s1)
    | (none, s1) => grow_and_place s1 obj_size obj_align grant

/-- src/allocators/raw_malloc/mod.rs, dealloc / free_block: tag the header
of the block preceding obj_start and push the content start onto the
freelist. The preconditions of the source (obj_start came from the
allocator and its block is occupied) are modelled as guards leaving the
state unchanged, since their violation is undefined behaviour. -/
def rm_dealloc (s : St) (obj_start : Nat) : St :=
  let block_start := obj_start - HEADER_SIZE
  match blockIdxAt s.base s.blocks block_start with
  | none => s
  | some i =>
    match s.blocks[i]? with
    | none => s
    | some b =>
      if b.free then s
      else ⟨s.base, s.blocks.set i ⟨b.csize, true⟩, (block_start + HEADER_SIZE) :: s.fl⟩

/-- The loop of try_adjust (src/allocators/raw_malloc/mod.rs) on the block
at index i with object start obj_start: shrink in place via place_raw once
the block end reaches new_block_end, stop at the heap end or at an occupied
successor, otherwise absorb the free successor (removing its node and
extending the content size). Returns the success flag together with the
state, which on failure keeps the merges already performed. -/
def try_adjust_loop (obj_start new_obj_size new_block_end : Nat) :
    St → Nat → Nat → Bool × St
  | s, _, 0 => (false, s)
  | s, i, fuel + 1 =>
    match s.blocks[i]? with
    | none => (false, s)
    | some b =>
      let block_end := obj_start + b.csize
      if new_block_end ≤ block_end then
        let pieces := place_pieces (obj_start - HEADER_SIZE) block_end obj_start new_obj_size
        (true,
          ⟨s.base, replaceIdx s.blocks i pieces.newBlocks, pushAll s.fl pieces.pushes⟩)
      else if block_end = heapEnd s then (false, s)
      else
        match blockIdxAt s.base s.blocks block_end with
        | none => (false, s)
        | some j =>
          match s.blocks[j]? with
          | none => (false, s)
          | some c =>
            if c.free then
              try_adjust_loop obj_start new_obj_size new_block_end
                ⟨s.base,
                  (replaceIdx s.blocks i [⟨b.csize + HEADER_SIZE + c.csize, b.free⟩]).eraseIdx j,
                  s.fl.erase (block_end + HEADER_SIZE)⟩
                i fuel
            else (false, s)

/-- src/allocators/raw_malloc/mod.rs, try_adjust. -/
def try_adjust (s : St) (block_start new_obj_size : Nat) : Bool × St :=
  let obj_start := block_start + HEADER_SIZE
  match checked_add obj_start new_obj_size with
  | none => (false, s)
  | some new_block_end =>
    match blockIdxAt s.base s.blocks block_start with
    | none => (false, s)
    | some i => try_adjust_loop obj_start new_obj_size new_block_end s i s.blocks.length

/-- src/allocators/raw_malloc/mod.rs, __realloc: augment the new size, try
in-place adjustment, otherwise allocate a new block with the old alignment,
copy the content (bytes are not part of this state) and free the old block. -/
def rm_realloc (s : St) (obj_start _size align new_size : Nat)
    (grant : Nat → Option Nat) : Option Nat × St :=
  match augment_size new_size with
  | none => (none, s)
  | some new_obj_size =>
    match try_adjust s (obj_start - HEADER_SIZE) new_obj_size with
    | (true, s1) => (some obj_start, s1)
    | (false, s1) =>
      match rm_alloc s1 new_obj_size align grant with
      | (some q, s2) => (some q, rm_dealloc s2 obj_start)
      | (none, s2) => (none, s2)

/-- One public operation of the allocator, carrying the grower responses
its execution may consume (at most one growth request per operation). -/
inductive Op where
  | alloc (size align : Nat) (grant : Nat → Option Nat)
  | dealloc (p : Nat)
  | realloc (p size align new_size : Nat) (grant : Nat → Option Nat)

/-- Execute one operation, keeping only the state. -/
def step (s : St) : Op → St
  | .alloc size align g => (rm_alloc s size align g).2
  | .dealloc p => rm_dealloc s p
  | .realloc p size align new_size g => (rm_realloc s p size align new_size g).2

/-- Execute a sequence of operations. -/
def run (s : St) (ops : List Op) : St := ops.foldl step s

/-- A conforming grower response: every granted amount covers the request
(spec section 4.3; Grower trait documentation in src/growers.rs). -/
def Conforming (grant : Nat → Option Nat) : Prop :=
  ∀ r k, grant r = some k → r ≤ k

/-- The initial state used by concrete executions below: an empty heap
whose base address is 8 (HEADER_ALIGN-aligned, nonzero, as produced by the
grower initialisation). -/
def init8 : St := ⟨8, [], []⟩

/-- A grower response granting exactly the request. -/
def grantExact : Nat → Option Nat := fun r => some r

/-- A conforming grower response granting one byte more than the request. -/
def grantPlus1 : Nat → Option Nat := fun r => some (r + 1)

/-- A grower response refusing every request. -/
def grantNone : Nat → Option Nat := fun _ => none

/-- src/growers.rs, ArenaGrower: the three fields of the struct. -/
structure ArenaGrower where
  heap_end : Nat
  arena_end : Nat
  min_increment : Nat
  deriving DecidableEq

/-- src/growers.rs, ArenaGrower::grow: a zero request probes the current
end; otherwise the request is raised to min_increment, the new end is
computed with checked_add and compared against the arena end, and on
success the state records the new end while the old end and the raised
amount are returned. -/
def arena_grow (g : ArenaGrower) (size : Nat) : Option (Nat × Nat) × ArenaGrower :=
  if size = 0 then (some (g.heap_end, 0), g)
  else
    match checked_add g.heap_end (max size g.min_increment) with
    | none => (none, g)
    | some new_heap_end =>
      if g.arena_end < new_heap_end then (none, g)
      else (some (g.heap_end, max size g.min_increment),
        ⟨new_heap_end, g.arena_end, g.min_increment⟩)

/-- src/growers.rs, BrkGrower: the recorded heap end (none before the first
call initialises it from sbrk) and the minimum increment. -/
structure BrkGrower where
  heap_end : Option Nat
  min_increment : Nat
  deriving DecidableEq

/-- The body of BrkGrower::grow after initialisation, with e the recorded
end and brk_ok the response of the brk syscall (true when brk accepts the
new end). -/
def brk_grow_core (g : BrkGrower) (e : Nat) (brk_ok : Nat → Bool) (size : Nat) :
    Option (Nat × Nat) × BrkGrower :=
  if size = 0 then (some (e, 0), g)
  else
    match checked_add e (max size g.min_increment) with
    | none => (none, g)
    | some new_heap_end =>
      if brk_ok new_heap_end then
        (some (e, max size g.min_increment), ⟨some new_heap_end, g.min_increment⟩)
      else (none, g)

/-- src/growers.rs, BrkGrower::grow, with sbrk0 the address returned by
sbrk(0) during try_init and brk_ok the response of brk. When the grower is
uninitialised, try_init records the HEADER_ALIGN-aligned address at or
above sbrk0 before the growth proper is attempted. -/
def brk_grow (g : BrkGrower) (sbrk0 : Nat) (brk_ok : Nat → Bool) (size : Nat) :
    Option (Nat × Nat) × BrkGrower :=
  match g.heap_end with
  | none =>
    match find_aligned sbrk0 HEADER_ALIGN with
    | none => (none, g)
    | some e => brk_grow_core ⟨some e, g.min_increment⟩ e brk_ok size
  | some e => brk_grow_core g e brk_ok size

/-- The smallest multiple of HEADER_SIZE that is at least
max (size, BLOCK_CONTENT_MIN_SIZE): the value the specification says
size augmentation computes. -/
def least_divisible (size : Nat) : Nat :=
  (max size BLOCK_CONTENT_MIN_SIZE + (HEADER_SIZE - 1)) / HEADER_SIZE * HEADER_SIZE

/-- Alignments accepted by the allocator interface are powers of two. -/
def isPow2 (n : Nat) : Prop := ∃ k, n = 2 ^ k

/-!
Theorems. Each claim of the specification review is settled below; shared
helper lemmas come first, the claim theorems carry the claim id in their
doc comment.
-/

/-- The grower granting one byte above each request conforms to the grower
contract (granted at least the request). -/
lemma conforming_grantPlus1 : Conforming grantPlus1 := by
  intro r k h
  simp only [grantPlus1, Option.some.injEq] at h
  omega

/-- The grower granting exactly each request conforms. -/
lemma conforming_grantExact : Conforming grantExact := by
  intro r k h
  simp only [grantExact, Option.some.injEq] at h
  omega

/-- Claim C1, evidence of the code bug: starting from an empty aligned heap,
a single allocate(size 1, align 1) served by a conforming grower that
grants one byte more than requested (as the grower contract of
src/growers.rs permits) produces a block whose content size is 17: odd,
not a multiple of HEADER_SIZE. The header word the code writes for it via
Header::new_unchecked(17, false) violates the debug assertion of
src/header.rs (content_size must be even) and, in release, reads back as a
tagged (free) header of content size 16, so the claimed partition
invariant fails on the code. -/
theorem C1_block_invariant_violated_by_conforming_grower :
    Conforming grantPlus1
      ∧ run init8 [.alloc 1 1 grantPlus1] = ⟨8, [⟨17, false⟩], []⟩
      ∧ ¬(17 % 2 = 0)
      ∧ ¬(17 % HEADER_SIZE = 0)
      ∧ (Header.new_unchecked 17 false).is_tagged = true
      ∧ (Header.new_unchecked 17 false).content_size = 16 :=
  ⟨conforming_grantPlus1, by decide, by decide, by decide, by decide, by decide⟩

/-- Claim C8, evidence of the code bug: after the same single allocation
served by a conforming grower granting one byte above the request, the heap
end (the value the zero-probe of the grower returns, base plus all granted
bytes) is 33, which is not HEADER_ALIGN-aligned; the next allocation that
reaches the grow path therefore fails the debug assertion
old_heap_end % HEADER_ALIGN == 0 of RawMalloc::grow. -/
theorem C8_probed_end_misaligned_for_conforming_grower :
    Conforming grantPlus1
      ∧ heapEnd (run init8 [.alloc 1 1 grantPlus1]) = 33
      ∧ ¬(heapEnd (run init8 [.alloc 1 1 grantPlus1]) % HEADER_ALIGN = 0) :=
  ⟨conforming_grantPlus1, by decide, by decide⟩

/-- Claim C9, counterexample: allocate(24, 1), deallocate, then
allocate(0, 1) with an exactly-granting grower. The zero-size allocation
succeeds and reuses the freed block, returning a pointer whose block has
content size 24, strictly larger than augment_size 0 = 16, so the claim
that the resulting content size equals the augmentation of 0 fails. -/
theorem C9_zero_alloc_content_size_not_augmented_zero :
    Conforming grantExact
      ∧ augment_size 0 = some 16
      ∧ (rm_alloc (run init8 [.alloc 24 1 grantExact, .dealloc 16]) 0 1 grantExact).1
          = some 16
      ∧ blockAt (rm_alloc (run init8 [.alloc 24 1 grantExact, .dealloc 16]) 0 1 grantExact).2
          (16 - HEADER_SIZE) = some ⟨24, false⟩
      ∧ (24 : Nat) ≠ 16 :=
  ⟨conforming_grantExact, by decide, by decide, by decide, by decide⟩

/-- Claim C3, counterexample: in the reachable state with an occupied block
of content size 16 at address 8 followed by a free block of content size 16
(freelist [40]), a failing reallocate of the first object to size 64 (the
grower refuses) leaves the block of the pointer with content size 40 and an
empty freelist: try_adjust merged the following free block before failing,
so the header content size and the freelist are not in their pre-call
state, contradicting the claim as stated. -/
theorem C3_failed_realloc_mutates_header_and_freelist :
    (run init8 [.alloc 16 1 grantExact, .alloc 16 1 grantExact, .dealloc 40]).blocks
        = [⟨16, false⟩, ⟨16, true⟩]
      ∧ (run init8 [.alloc 16 1 grantExact, .alloc 16 1 grantExact, .dealloc 40]).fl = [40]
      ∧ (rm_realloc (run init8 [.alloc 16 1 grantExact, .alloc 16 1 grantExact, .dealloc 40])
          16 16 1 64 grantNone).1 = none
      ∧ (rm_realloc (run init8 [.alloc 16 1 grantExact, .alloc 16 1 grantExact, .dealloc 40])
          16 16 1 64 grantNone).2.blocks = [⟨40, false⟩]
      ∧ (rm_realloc (run init8 [.alloc 16 1 grantExact, .alloc 16 1 grantExact, .dealloc 40])
          16 16 1 64 grantNone).2.fl = [] :=
  ⟨by decide, by decide, by decide, by decide, by decide⟩

/-- Claim C10, counterexample: an uninitialised BrkGrower (recorded end
none) whose brk syscall refuses: grow(1) fails, yet the grower records the
probed current end some 8, so the recorded buffer end is not unchanged on
every failing grow. -/
theorem C10_uninitialised_brk_failure_records_end :
    (brk_grow ⟨none, 0⟩ 8 (fun _ => false) 1).1 = none
      ∧ (brk_grow ⟨none, 0⟩ 8 (fun _ => false) 1).2 = ⟨some 8, 0⟩
      ∧ (⟨some 8, 0⟩ : BrkGrower) ≠ (⟨none, 0⟩ : BrkGrower) :=
  ⟨by decide, by decide, by decide⟩

/-- checked_add returns exactly the sum when it succeeds. -/
lemma checked_add_some {a b c : Nat} (h : checked_add a b = some c) : c = a + b := by
  unfold checked_add at h
  split at h
  · exact (Option.some_inj.mp h).symm
  · cases h

/-- checked_add succeeds whenever the sum stays inside the address space. -/
lemma checked_add_of_le {a b : Nat} (h : a + b ≤ UMAX) :
    checked_add a b = some (a + b) := by
  have hU : UMAX = 18446744073709551615 := by norm_num [UMAX]
  rw [hU] at h
  unfold checked_add
  rw [hU, if_pos (by omega)]

/-- Claim C10 (amended): for both concrete growers, a successful grow with
a positive request returns the pre-growth recorded end (for BrkGrower, the
end recorded after initialisation) together with a granted amount of
exactly max (size, min_increment), and records end + granted; a failing
grow leaves an ArenaGrower unchanged, and leaves a BrkGrower unchanged
whenever it was already initialised (the uninitialised case may record the
probed current end, see the counterexample). -/
theorem C10_grower_grow_characterisation :
    (∀ (g : ArenaGrower) (size : Nat) (r : Nat × Nat) (g1 : ArenaGrower),
        0 < size → arena_grow g size = (some r, g1) →
        r = (g.heap_end, max size g.min_increment)
          ∧ g1 = ⟨g.heap_end + max size g.min_increment, g.arena_end, g.min_increment⟩)
      ∧ (∀ (g : ArenaGrower) (size : Nat) (g1 : ArenaGrower),
          arena_grow g size = (none, g1) → g1 = g)
      ∧ (∀ (g : BrkGrower) (sbrk0 : Nat) (brk_ok : Nat → Bool) (size : Nat)
            (r : Nat × Nat) (g1 : BrkGrower),
          0 < size → brk_grow g sbrk0 brk_ok size = (some r, g1) →
          ∃ e, (g.heap_end = some e
                  ∨ (g.heap_end = none ∧ find_aligned sbrk0 HEADER_ALIGN = some e))
            ∧ r = (e, max size g.min_increment)
            ∧ g1 = ⟨some (e + max size g.min_increment), g.min_increment⟩)
      ∧ (∀ (g : BrkGrower) (e sbrk0 : Nat) (brk_ok : Nat → Bool) (size : Nat)
            (g1 : BrkGrower),
          g.heap_end = some e → brk_grow g sbrk0 brk_ok size = (none, g1) → g1 = g) := by
  have core_some : ∀ (g : BrkGrower) (e : Nat) (brk_ok : Nat → Bool) (size : Nat)
      (r : Nat × Nat) (g1 : BrkGrower),
      0 < size → brk_grow_core g e brk_ok size = (some r, g1) →
      r = (e, max size g.min_increment)
        ∧ g1 = ⟨some (e + max size g.min_increment), g.min_increment⟩ := by
    intro g e brk_ok size r g1 hpos h
    unfold brk_grow_core at h
    rw [if_neg (by omega)] at h
    split at h
    next heq => cases h
    next ne heq =>
      have hne := checked_add_some heq
      split at h
      next hok =>
        cases h
        exact ⟨rfl, by rw [hne]⟩
      next hok => cases h
  have core_none : ∀ (g : BrkGrower) (e : Nat) (brk_ok : Nat → Bool) (size : Nat)
      (g1 : BrkGrower), brk_grow_core g e brk_ok size = (none, g1) → g1 = g := by
    intro g e brk_ok size g1 h
    unfold brk_grow_core at h
    split at h
    · cases h
    · split at h
      next heq => cases h; rfl
      next ne heq =>
        split at h
        next hok => cases h
        next hok => cases h; rfl
  refine ⟨?_, ?_, ?_, ?_⟩
  · intro g size r g1 hpos h
    unfold arena_grow at h
    rw [if_neg (by omega)] at h
    split at h
    next heq => cases h
    next ne heq =>
      have hne := checked_add_some heq
      split at h
      next harena => cases h
      next harena =>
        cases h
        exact ⟨rfl, by rw [hne]⟩
  · intro g size g1 h
    unfold arena_grow at h
    split at h
    · cases h
    · split at h
      next heq => cases h; rfl
      next ne heq =>
        split at h
        next harena => cases h; rfl
        next harena => cases h
  · intro g sbrk0 brk_ok size r g1 hpos h
    unfold brk_grow at h
    cases hge : g.heap_end with
    | none =>
      rw [hge] at h
      cases hfa : find_aligned sbrk0 HEADER_ALIGN with
      | none => rw [hfa] at h; cases h
      | some e =>
        rw [hfa] at h
        obtain ⟨hr, hg1⟩ := core_some _ e brk_ok size r g1 hpos h
        exact ⟨e, Or.inr ⟨rfl, rfl⟩, hr, hg1⟩
    | some e =>
      rw [hge] at h
      obtain ⟨hr, hg1⟩ := core_some g e brk_ok size r g1 hpos h
      exact ⟨e, Or.inl rfl, hr, hg1⟩
  · intro g e sbrk0 brk_ok size g1 hge h
    unfold brk_grow at h
    rw [hge] at h
    exact core_none g e brk_ok size g1 h

/-- Claim C5: size augmentation computes exactly the smallest multiple of
HEADER_SIZE at or above max (size, BLOCK_CONTENT_MIN_SIZE), and fails
precisely when that value does not fit in a signed machine word (a usize
overflow inside find_divisible forces the value above isize::MAX as well,
so the failure condition is a single comparison with ISIZE_MAX). -/
theorem C5_augment_size_least_multiple :
    ∀ size : Nat,
      augment_size size =
          (if least_divisible size ≤ ISIZE_MAX then some (least_divisible size) else none)
        ∧ HEADER_SIZE ∣ least_divisible size
        ∧ max size BLOCK_CONTENT_MIN_SIZE ≤ least_divisible size
        ∧ (∀ m, HEADER_SIZE ∣ m → max size BLOCK_CONTENT_MIN_SIZE ≤ m →
            least_divisible size ≤ m) := by
  have main : ∀ y : Nat, 16 ≤ y →
      (match find_divisible y 8 with
        | some n => if 0 < n ∧ n ≤ ISIZE_MAX then some n else none
        | none => none)
      = if (y + 7) / 8 * 8 ≤ ISIZE_MAX then some ((y + 7) / 8 * 8) else none := by
    intro y hy
    have hU : UMAX = 18446744073709551615 := by norm_num [UMAX]
    have hI : ISIZE_MAX = 9223372036854775807 := by norm_num [ISIZE_MAX]
    by_cases h8 : y % 8 = 0
    · have hfd : find_divisible y 8 = some y := by
        unfold find_divisible
        rw [if_pos h8]
      rw [hfd]
      show (if 0 < y ∧ y ≤ ISIZE_MAX then some y else none) = _
      have hL : (y + 7) / 8 * 8 = y := by omega
      rw [hL, hI]
      split_ifs with h1 h2 h2 <;> first | rfl | omega
    · by_cases hov : y / 8 * 8 ≤ UMAX - 8
      · have hfd : find_divisible y 8 = some (y / 8 * 8 + 8) := by
          unfold find_divisible checked_add
          rw [if_neg h8, if_pos hov]
        rw [hfd]
        show (if 0 < y / 8 * 8 + 8 ∧ y / 8 * 8 + 8 ≤ ISIZE_MAX then
          some (y / 8 * 8 + 8) else none) = _
        have hL : (y + 7) / 8 * 8 = y / 8 * 8 + 8 := by omega
        rw [hL, hI]
        split_ifs with h1 h2 h2 <;> first | rfl | omega
      · have hfd : find_divisible y 8 = none := by
          unfold find_divisible checked_add
          rw [if_neg h8, if_neg hov]
        rw [hfd]
        show none = _
        rw [hI]
        rw [if_neg (by rw [hU] at hov; omega)]
  intro size
  have hB : BLOCK_CONTENT_MIN_SIZE = 16 := rfl
  have hH : HEADER_SIZE = 8 := rfl
  have hy16 : 16 ≤ max size BLOCK_CONTENT_MIN_SIZE := by
    rw [hB]
    exact le_max_right _ _
  refine ⟨?_, ?_, ?_, ?_⟩
  · exact main (max size BLOCK_CONTENT_MIN_SIZE) hy16
  · exact ⟨(max size BLOCK_CONTENT_MIN_SIZE + (HEADER_SIZE - 1)) / HEADER_SIZE,
      by unfold least_divisible; ring⟩
  · unfold least_divisible
    rw [hH]
    generalize max size BLOCK_CONTENT_MIN_SIZE = y
    omega
  · intro m hdvd hm
    obtain ⟨k, hk⟩ := hdvd
    unfold least_divisible
    rw [hH] at hk ⊢
    generalize hgen : max size BLOCK_CONTENT_MIN_SIZE = y at hm ⊢
    omega

/-- Witness for C5: the characterisation at size 11, whose augmented value
is 16. -/
theorem C5_augment_size_least_multiple_witness : augment_size 11 = some 16 := by
  have h := (C5_augment_size_least_multiple 11).1
  have hL : least_divisible 11 = 16 := by decide
  rw [hL] at h
  rw [h]
  norm_num [ISIZE_MAX]

/-- Claim C4: place_raw never writes into the payload range
[obj_start, obj_start + obj_size): under the preconditions of place_raw
every write it performs (headers of the up-to-three created blocks and the
freelist nodes of the padding blocks) lies entirely before obj_start or
entirely at or after obj_start + obj_size. -/
theorem C4_place_raw_writes_outside_payload :
    ∀ block_start block_end obj_start obj_size : Nat,
      BLOCK_MIN_SIZE ≤ block_end - block_start →
      block_start ≤ obj_start →
      obj_start + obj_size ≤ block_end →
      (obj_start - block_start = HEADER_SIZE ∨
        HEADER_SIZE + BLOCK_MIN_SIZE ≤ obj_start - block_start) →
      ∀ w ∈ (place_pieces block_start block_end obj_start obj_size).writes,
        w.1 + w.2 ≤ obj_start ∨ obj_start + obj_size ≤ w.1 := by
    intro B E obj os hMin hBobj hfit hdist w hw
    have hH : HEADER_SIZE = 8 := rfl
    have hM : BLOCK_MIN_SIZE = 24 := rfl
    rw [hH, hM] at hdist
    by_cases hL : obj - B = 8
    · by_cases hR : (24 : Nat) ≤ E - (obj + os)
      · have hwl : (place_pieces B E obj os).writes
            = [(obj + os, 8), (obj + os + 8, 16), (obj - 8, 8)] := by
          simp [place_pieces, hL, hR, HEADER_SIZE, NODE_SIZE, BLOCK_MIN_SIZE,
            BLOCK_CONTENT_MIN_SIZE]
        rw [hwl] at hw
        simp only [List.mem_cons, List.not_mem_nil, or_false] at hw
        rcases hw with rfl | rfl | rfl <;> dsimp only <;> omega
      · have hwl : (place_pieces B E obj os).writes = [(obj - 8, 8)] := by
          simp [place_pieces, hL, hR, HEADER_SIZE, NODE_SIZE, BLOCK_MIN_SIZE,
            BLOCK_CONTENT_MIN_SIZE]
        rw [hwl] at hw
        simp only [List.mem_cons, List.not_mem_nil, or_false] at hw
        rcases hw with rfl
        dsimp only
        omega
    · by_cases hR : (24 : Nat) ≤ E - (obj + os)
      · have hwl : (place_pieces B E obj os).writes
            = [(B, 8), (B + 8, 16), (obj + os, 8), (obj + os + 8, 16), (obj - 8, 8)] := by
          simp [place_pieces, hL, hR, HEADER_SIZE, NODE_SIZE, BLOCK_MIN_SIZE,
            BLOCK_CONTENT_MIN_SIZE]
        rw [hwl] at hw
        simp only [List.mem_cons, List.not_mem_nil, or_false] at hw
        rcases hw with rfl | rfl | rfl | rfl | rfl <;> dsimp only <;> omega
      · have hwl : (place_pieces B E obj os).writes
            = [(B, 8), (B + 8, 16), (obj - 8, 8)] := by
          simp [place_pieces, hL, hR, HEADER_SIZE, NODE_SIZE, BLOCK_MIN_SIZE,
            BLOCK_CONTENT_MIN_SIZE]
        rw [hwl] at hw
        simp only [List.mem_cons, List.not_mem_nil, or_false] at hw
        rcases hw with rfl | rfl | rfl <;> dsimp only <;> omega

/-- Witness for C4: the preconditions at (0, 48, 8, 16) hold and each of
the three writes of place_pieces there avoids the payload [8, 24). -/
theorem C4_place_raw_writes_outside_payload_witness :
    (24 + 8 ≤ 8 ∨ 8 + 16 ≤ 24) ∧ (32 + 16 ≤ 8 ∨ 8 + 16 ≤ 32)
      ∧ (0 + 8 ≤ 8 ∨ 8 + 16 ≤ 0) := by
  have h := C4_place_raw_writes_outside_payload 0 48 8 16
    (by decide) (by decide) (by decide) (by decide)
  exact ⟨h (24, 8) (by decide), h (32, 16) (by decide), h (0, 8) (by decide)⟩

/-- Witness for C10: the characterisation applied to a concrete arena
grower with minimum increment 5 serving a request of 1 byte. -/
theorem C10_grower_grow_characterisation_witness :
    ((8, 5) : Nat × Nat) = ((⟨8, 100, 5⟩ : ArenaGrower).heap_end, max 1 5)
      ∧ (⟨13, 100, 5⟩ : ArenaGrower)
          = ⟨(⟨8, 100, 5⟩ : ArenaGrower).heap_end + max 1 5, 100, 5⟩ :=
  C10_grower_grow_characterisation.1 ⟨8, 100, 5⟩ 1 (8, 5) ⟨13, 100, 5⟩
    (by decide) (by decide)

/-!
Toolkit: arithmetic of extents, prefix-sum addresses and partition lookup.
-/

lemma extent_pos (b : Block) : 0 < extent b := by
  unfold extent HEADER_SIZE
  omega

lemma extSum_nil : extSum [] = 0 := rfl

lemma extSum_cons (b : Block) (bs : List Block) :
    extSum (b :: bs) = extent b + extSum bs := by
  simp [extSum]

lemma extSum_append (xs ys : List Block) :
    extSum (xs ++ ys) = extSum xs + extSum ys := by
  simp [extSum]

lemma extSum_take_le (l : List Block) (m : Nat) : extSum (l.take m) ≤ extSum l := by
  conv_rhs => rw [← List.take_append_drop m l]
  rw [extSum_append]
  omega

lemma extSum_take_mono (l : List Block) {m n : Nat} (h : m ≤ n) :
    extSum (l.take m) ≤ extSum (l.take n) := by
  have := extSum_take_le (l.take n) m
  rwa [List.take_take, min_eq_left h] at this

lemma extSum_take_succ {l : List Block} {i : Nat} {b : Block} (h : l[i]? = some b) :
    extSum (l.take (i + 1)) = extSum (l.take i) + extent b := by
  rw [List.take_succ, h, extSum_append]
  simp [extSum]

lemma extSum_decompose {l : List Block} {i : Nat} {b : Block} (h : l[i]? = some b) :
    extSum l = extSum (l.take i) + extent b + extSum (l.drop (i + 1)) := by
  conv_lhs => rw [← List.take_append_drop (i + 1) l]
  rw [extSum_append, extSum_take_succ h]

lemma addrAt_zero (base : Nat) (bs : List Block) : addrAt base bs 0 = base := by
  simp [addrAt, extSum]

lemma addrAt_cons_succ (base : Nat) (b : Block) (bs : List Block) (i : Nat) :
    addrAt base (b :: bs) (i + 1) = addrAt (base + extent b) bs i := by
  simp [addrAt, List.take_cons, extSum_cons]
  omega

lemma addrAt_succ {base : Nat} {bs : List Block} {i : Nat} {b : Block}
    (h : bs[i]? = some b) :
    addrAt base bs (i + 1) = addrAt base bs i + extent b := by
  unfold addrAt
  rw [extSum_take_succ h]
  omega

lemma addrAt_lt {base : Nat} {l : List Block} {j k : Nat} (hjk : j < k)
    (hk : k ≤ l.length) : addrAt base l j < addrAt base l k := by
  have hj : j < l.length := lt_of_lt_of_le hjk hk
  obtain ⟨b, hb⟩ : ∃ b, l[j]? = some b := ⟨l[j], List.getElem?_eq_getElem hj⟩
  have h1 := extSum_take_succ hb
  have h2 := extSum_take_mono l (show j + 1 ≤ k from hjk)
  have h3 := extent_pos b
  unfold addrAt
  omega

lemma addrAt_inj {base : Nat} {l : List Block} {j k : Nat} (hj : j ≤ l.length)
    (hk : k ≤ l.length) (h : addrAt base l j = addrAt base l k) : j = k := by
  rcases Nat.lt_trichotomy j k with hlt | heq | hgt
  · exact absurd h (Nat.ne_of_lt (addrAt_lt hlt hk))
  · exact heq
  · exact absurd h.symm (Nat.ne_of_lt (addrAt_lt hgt hj))

lemma blockIdxAt_some {base : Nat} {bs : List Block} {A : Nat} {i : Nat}
    (h : blockIdxAt base bs A = some i) : i < bs.length ∧ addrAt base bs i = A := by
  induction bs generalizing base i with
  | nil => cases h
  | cons b rest ih =>
    unfold blockIdxAt at h
    split at h
    next heq =>
      cases h
      exact ⟨Nat.succ_pos _, by rw [addrAt_zero, heq]⟩
    next heq =>
      rcases Option.map_eq_some'.mp h with ⟨i0, h0, rfl⟩
      obtain ⟨hlen, haddr⟩ := ih h0
      exact ⟨Nat.succ_lt_succ hlen, by rw [addrAt_cons_succ, haddr]⟩

lemma blockIdxAt_lt_none {base : Nat} {bs : List Block} {A : Nat} (h : A < base) :
    blockIdxAt base bs A = none := by
  induction bs generalizing base with
  | nil => rfl
  | cons b rest ih =>
    unfold blockIdxAt
    rw [if_neg (by omega)]
    rw [ih (by have := extent_pos b; omega)]
    rfl

lemma blockIdxAt_ge_none {base : Nat} {bs : List Block} {A : Nat}
    (h : base + extSum bs ≤ A) : blockIdxAt base bs A = none := by
  induction bs generalizing base with
  | nil => rfl
  | cons b rest ih =>
    rw [extSum_cons] at h
    have hb := extent_pos b
    unfold blockIdxAt
    rw [if_neg (by omega)]
    rw [ih (by omega)]
    rfl

lemma blockIdxAt_addrAt {base : Nat} {bs : List Block} {i : Nat} (h : i < bs.length) :
    blockIdxAt base bs (addrAt base bs i) = some i := by
  induction bs generalizing base i with
  | nil => cases h
  | cons b rest ih =>
    cases i with
    | zero =>
      unfold blockIdxAt
      rw [addrAt_zero, if_pos rfl]
    | succ i0 =>
      unfold blockIdxAt
      rw [addrAt_cons_succ]
      have hge : base < addrAt (base + extent b) rest i0 := by
        have : base + extent b ≤ addrAt (base + extent b) rest i0 := Nat.le_add_right _ _
        have := extent_pos b
        omega
      rw [if_neg (by omega), ih (Nat.lt_of_succ_lt_succ h)]
      rfl

lemma blockIdxAt_append_some {base : Nat} {pre suf : List Block} {A : Nat} {i : Nat}
    (h : blockIdxAt base pre A = some i) :
    blockIdxAt base (pre ++ suf) A = some i := by
  induction pre generalizing base i with
  | nil => cases h
  | cons b rest ih =>
    simp only [blockIdxAt, List.cons_append, List.append_eq] at h ⊢
    split at h
    next heq =>
      cases h
      rw [if_pos heq]
    next heq =>
      rcases Option.map_eq_some'.mp h with ⟨i0, h0, rfl⟩
      rw [if_neg heq, ih h0]
      rfl

lemma blockIdxAt_append_none {base : Nat} {pre suf : List Block} {A : Nat}
    (h : blockIdxAt base pre A = none) :
    blockIdxAt base (pre ++ suf) A
      = (blockIdxAt (base + extSum pre) suf A).map (· + pre.length) := by
  induction pre generalizing base with
  | nil =>
    rw [extSum_nil, Nat.add_zero, List.nil_append, List.length_nil]
    cases ho : blockIdxAt base suf A <;> simp [ho]
  | cons b rest ih =>
    simp only [blockIdxAt, List.cons_append, List.append_eq] at h ⊢
    split at h
    next heq => cases h
    next heq =>
      rw [if_neg heq]
      have h0 : blockIdxAt (base + extent b) rest A = none := by
        cases h0 : blockIdxAt (base + extent b) rest A with
        | none => rfl
        | some k => rw [h0] at h; cases h
      rw [ih h0, extSum_cons]
      cases ho : blockIdxAt (base + (extent b + extSum rest)) suf A with
      | none =>
        have : base + extent b + extSum rest = base + (extent b + extSum rest) := by omega
        rw [this, ho]
        rfl
      | some k =>
        have : base + extent b + extSum rest = base + (extent b + extSum rest) := by omega
        rw [this, ho]
        simp [List.length_cons]
        omega

lemma blockAtL_append_lo {base : Nat} {pre suf : List Block} {A : Nat}
    (h : A < base + extSum pre) :
    blockAtL base (pre ++ suf) A = blockAtL base pre A := by
  unfold blockAtL
  cases hpre : blockIdxAt base pre A with
  | some k =>
    rw [blockIdxAt_append_some hpre]
    obtain ⟨hk, -⟩ := blockIdxAt_some hpre
    exact List.getElem?_append_left hk
  | none =>
    rw [blockIdxAt_append_none hpre, blockIdxAt_lt_none h]
    rfl

lemma blockAtL_append_hi {base : Nat} {pre suf : List Block} {A : Nat}
    (h : base + extSum pre ≤ A) :
    blockAtL base (pre ++ suf) A = blockAtL (base + extSum pre) suf A := by
  unfold blockAtL
  rw [blockIdxAt_append_none (blockIdxAt_ge_none h)]
  cases ho : blockIdxAt (base + extSum pre) suf A with
  | none => rfl
  | some k =>
    show (pre ++ suf)[k + pre.length]? = suf[k]?
    rw [List.getElem?_append_right (by omega)]
    congr 1
    omega

lemma blockAtL_cons_self (base : Nat) (b : Block) (bs : List Block) :
    blockAtL base (b :: bs) base = some b := by
  simp [blockAtL, blockIdxAt]

/-- Replacing a middle segment of the partition by one of equal byte extent
does not change the block found at any address outside the segment. -/
lemma blockAtL_replace_outside {base : Nat} {pre mid mid2 suf : List Block} {A : Nat}
    (hsum : extSum mid2 = extSum mid)
    (hout : A < base + extSum pre ∨ base + extSum pre + extSum mid ≤ A) :
    blockAtL base (pre ++ mid2 ++ suf) A = blockAtL base (pre ++ mid ++ suf) A := by
  rcases hout with hlo | hhi
  · rw [List.append_assoc, List.append_assoc, blockAtL_append_lo hlo,
      blockAtL_append_lo hlo]
  · have e2 : extSum (pre ++ mid2) = extSum pre + extSum mid := by
      rw [extSum_append, hsum]
    have e1 : extSum (pre ++ mid) = extSum pre + extSum mid := by
      rw [extSum_append]
    rw [blockAtL_append_hi (by rw [e2]; omega), blockAtL_append_hi (by rw [e1]; omega),
      e1, e2]

lemma getElem?_middle {α : Type} (pre : List α) (b : α) (suf : List α) :
    (pre ++ b :: suf)[pre.length]? = some b := by
  rw [List.getElem?_append_right (le_refl _)]
  simp

lemma getElem?_middle1 {α : Type} (pre : List α) (b c : α) (suf : List α) :
    (pre ++ b :: c :: suf)[pre.length + 1]? = some c := by
  rw [List.getElem?_append_right (by omega)]
  simp

lemma take_middle {α : Type} (pre : List α) (b : α) (suf : List α) :
    (pre ++ b :: suf).take pre.length = pre :=
  List.take_left' rfl

lemma take_middle1 {α : Type} (pre : List α) (b : α) (suf : List α) :
    (pre ++ b :: suf).take (pre.length + 1) = pre ++ [b] := by
  have h : pre ++ b :: suf = (pre ++ [b]) ++ suf := by simp
  rw [h, List.take_left' (by simp)]

lemma drop_middle2 {α : Type} (pre : List α) (b c : α) (suf : List α) :
    (pre ++ b :: c :: suf).drop (pre.length + 2) = suf := by
  have h : pre ++ b :: c :: suf = (pre ++ [b, c]) ++ suf := by simp
  rw [h, List.drop_left' (by simp)]

lemma addrAt_middle (base : Nat) (pre : List Block) (b : Block) (suf : List Block) :
    addrAt base (pre ++ b :: suf) pre.length = base + extSum pre := by
  unfold addrAt
  rw [take_middle]

lemma heapEnd_decomp (base : Nat) (pre : List Block) (b : Block) (suf : List Block)
    (fl : List Nat) :
    heapEnd ⟨base, pre ++ b :: suf, fl⟩ = base + extSum pre + extent b + extSum suf := by
  show base + extSum (pre ++ b :: suf) = _
  rw [extSum_append, extSum_cons]
  omega

lemma replace_erase_shape {bs : List Block} {i : Nat} {x : Block} (hi : i < bs.length) :
    (replaceIdx bs i [x]).eraseIdx (i + 1) = bs.take i ++ x :: bs.drop (i + 2) := by
  have hlen : (bs.take i ++ [x]).length = i + 1 := by
    simp [List.length_take, min_eq_left (le_of_lt hi)]
  unfold replaceIdx
  rw [List.eraseIdx_eq_take_drop_succ, List.take_left' hlen]
  have hdrop : ((bs.take i ++ [x]) ++ bs.drop (i + 1)).drop (i + 1 + 1)
      = bs.drop (i + 2) := by
    have h1 : ((bs.take i ++ [x]) ++ bs.drop (i + 1)).drop (i + 1) = bs.drop (i + 1) :=
      List.drop_left' hlen
    calc ((bs.take i ++ [x]) ++ bs.drop (i + 1)).drop (i + 1 + 1)
        = (((bs.take i ++ [x]) ++ bs.drop (i + 1)).drop (i + 1)).drop 1 := by
          rw [List.drop_drop]
      _ = (bs.drop (i + 1)).drop 1 := by rw [h1]
      _ = bs.drop (i + 2) := by rw [List.drop_drop]
  rw [hdrop]
  simp

lemma decompose_two {bs : List Block} {i : Nat} {b c : Block}
    (hb : bs[i]? = some b) (hc : bs[i + 1]? = some c) :
    bs = bs.take i ++ [b, c] ++ bs.drop (i + 2) := by
  conv_lhs => rw [← List.take_append_drop (i + 2) bs]
  congr 1
  rw [show i + 2 = (i + 1) + 1 from rfl, List.take_succ, hc, List.take_succ, hb]
  simp

/-- One coalescing step (extend block i over the free block i+1) preserves
every occupied block: same start address, same tag, content size only
growing (it grows exactly for the target block i when it is the one
observed). -/
lemma merge_step_preserves {base : Nat} {bs : List Block} {i : Nat} {b c : Block}
    {A C : Nat}
    (hb : bs[i]? = some b) (hc : bs[i + 1]? = some c) (hcf : c.free = true)
    (hA : blockAtL base bs A = some ⟨C, false⟩) :
    ∃ C2, C ≤ C2 ∧
      blockAtL base
        (bs.take i ++ ⟨b.csize + HEADER_SIZE + c.csize, b.free⟩ :: bs.drop (i + 2)) A
        = some ⟨C2, false⟩ := by
  obtain ⟨k, hk⟩ : ∃ k, blockIdxAt base bs A = some k := by
    unfold blockAtL at hA
    cases h : blockIdxAt base bs A with
    | none => rw [h] at hA; cases hA
    | some k => exact ⟨k, rfl⟩
  have hbk : bs[k]? = some ⟨C, false⟩ := by
    unfold blockAtL at hA
    rw [hk] at hA
    exact hA
  obtain ⟨hklen, hkaddr⟩ := blockIdxAt_some hk
  have hdec := decompose_two hb hc
  have hsum : extSum [(⟨b.csize + HEADER_SIZE + c.csize, b.free⟩ : Block)]
      = extSum [b, c] := by
    simp [extSum, extent]
    omega
  have hgoal_list :
      bs.take i ++ (⟨b.csize + HEADER_SIZE + c.csize, b.free⟩ :: bs.drop (i + 2))
        = bs.take i ++ [(⟨b.csize + HEADER_SIZE + c.csize, b.free⟩ : Block)]
            ++ bs.drop (i + 2) := by
    simp
  rcases Nat.lt_trichotomy k i with hki | rfl | hik
  · have hlt : A < base + extSum (bs.take i) := by
      have h1 : extSum (bs.take (k + 1)) ≤ extSum (bs.take i) := extSum_take_mono bs hki
      have h2 := extSum_take_succ hbk
      have h3 := extent_pos (⟨C, false⟩ : Block)
      rw [← hkaddr]
      unfold addrAt
      omega
    refine ⟨C, le_rfl, ?_⟩
    rw [hgoal_list, blockAtL_replace_outside hsum (Or.inl hlt), ← hdec]
    exact hA
  · have hbb : b = ⟨C, false⟩ := Option.some_inj.mp (hb.symm.trans hbk)
    refine ⟨C + HEADER_SIZE + c.csize, by omega, ?_⟩
    have hA_eq : A = base + extSum (bs.take k) := by
      rw [← hkaddr]
      rfl
    rw [hgoal_list, List.append_assoc, blockAtL_append_hi (by omega)]
    have hsing :
        [(⟨b.csize + HEADER_SIZE + c.csize, b.free⟩ : Block)] ++ bs.drop (k + 2)
          = (⟨b.csize + HEADER_SIZE + c.csize, b.free⟩ : Block) :: bs.drop (k + 2) := by
      simp
    rw [hsing, hA_eq, blockAtL_cons_self, hbb]
  · have hk2 : i + 2 ≤ k := by
      rcases Nat.eq_or_lt_of_le (Nat.succ_le_of_lt hik) with heq | hlt
      · exfalso
        rw [← heq] at hbk
        have : c = ⟨C, false⟩ := Option.some_inj.mp (hc.symm.trans hbk)
        rw [this] at hcf
        cases hcf
      · omega
    have hge : base + extSum (bs.take i) + extSum [b, c] ≤ A := by
      have h1 : extSum (bs.take (i + 2)) ≤ extSum (bs.take k) := extSum_take_mono bs hk2
      have h2 : extSum (bs.take (i + 2)) = extSum (bs.take i) + extent b + extent c := by
        rw [show i + 2 = (i + 1) + 1 from rfl, extSum_take_succ hc, extSum_take_succ hb]
      have h3 : extSum [b, c] = extent b + (extent c + 0) := by
        simp [extSum]
      rw [← hkaddr]
      unfold addrAt
      omega
    refine ⟨C, le_rfl, ?_⟩
    rw [hgoal_list, blockAtL_replace_outside hsum (Or.inr hge), ← hdec]
    exact hA

/-- The loop of merge_subsequent_nodes computed in closed form: with the
partition split as pre ++ b :: suf and the loop started on block
pre.length, the maximal free run at the head of suf is absorbed into b,
the remaining suffix survives, and exactly the nodes of the absorbed run
are erased from the freelist in address order. -/
lemma merge_loop_char (base : Nat) (pre : List Block) :
    ∀ (suf : List Block) (b : Block) (fl : List Nat) (fuel : Nat),
      suf.length < fuel →
      merge_loop ⟨base, pre ++ b :: suf, fl⟩ pre.length fuel
        = ⟨base,
            pre ++ ⟨b.csize + extSum (suf.takeWhile (·.free)), b.free⟩
              :: suf.dropWhile (·.free),
            (runNodes (base + extSum pre + extent b)
              (suf.takeWhile (·.free))).foldl List.erase fl⟩ := by
  have hextb : ∀ x : Block, extent x = HEADER_SIZE + x.csize := fun _ => rfl
  intro suf
  induction suf with
  | nil =>
    intro b fl fuel hfuel
    obtain ⟨f, rfl⟩ : ∃ f, fuel = f + 1 := ⟨fuel - 1, by omega⟩
    have hget : (pre ++ b :: ([] : List Block))[pre.length]? = some b :=
      getElem?_middle pre b []
    have haddr := addrAt_middle base pre b ([] : List Block)
    have hend := heapEnd_decomp base pre b ([] : List Block) fl
    simp only [merge_loop, hget]
    rw [if_pos (by rw [haddr, hend, hextb b]; simp [extSum]; omega)]
    simp [extSum, runNodes]
  | cons c cs ih =>
    intro b fl fuel hfuel
    obtain ⟨f, rfl⟩ : ∃ f, fuel = f + 1 := ⟨fuel - 1, by omega⟩
    have hget : (pre ++ b :: c :: cs)[pre.length]? = some b := getElem?_middle pre b _
    have hgetc : (pre ++ b :: c :: cs)[pre.length + 1]? = some c :=
      getElem?_middle1 pre b c cs
    have haddr := addrAt_middle base pre b (c :: cs)
    have hend := heapEnd_decomp base pre b (c :: cs) fl
    have hne : ¬(addrAt base (pre ++ b :: c :: cs) pre.length + HEADER_SIZE + b.csize
        = heapEnd ⟨base, pre ++ b :: c :: cs, fl⟩) := by
      rw [haddr, hend, extSum_cons]
      have h1 := extent_pos c
      have h2 := hextb b
      omega
    have hlen1 : pre.length + 1 < (pre ++ b :: c :: cs).length := by
      simp [List.length_append]
    have h1 : addrAt base (pre ++ b :: c :: cs) pre.length + HEADER_SIZE + b.csize
        = addrAt base (pre ++ b :: c :: cs) (pre.length + 1) := by
      rw [addrAt_succ hget, hextb b]
      omega
    have hj : blockIdxAt base (pre ++ b :: c :: cs)
        (addrAt base (pre ++ b :: c :: cs) pre.length + HEADER_SIZE + b.csize)
        = some (pre.length + 1) := by
      rw [h1]
      exact blockIdxAt_addrAt hlen1
    simp only [merge_loop, hget]
    rw [if_neg hne]
    simp only [hj, hgetc]
    by_cases hcf : c.free
    · simp only [hcf, if_true]
      have hshape :
          (replaceIdx (pre ++ b :: c :: cs) pre.length
              [⟨b.csize + HEADER_SIZE + c.csize, b.free⟩]).eraseIdx (pre.length + 1)
            = pre ++ ⟨b.csize + HEADER_SIZE + c.csize, b.free⟩ :: cs := by
        rw [replace_erase_shape (by simp [List.length_append])]
        rw [take_middle, drop_middle2]
      rw [hshape]
      have hih := ih ⟨b.csize + HEADER_SIZE + c.csize, b.free⟩
        (fl.erase (addrAt base (pre ++ b :: c :: cs) pre.length + HEADER_SIZE + b.csize
          + HEADER_SIZE))
        f (by simp at hfuel ⊢; omega)
      have e1 : (⟨b.csize + HEADER_SIZE + c.csize, b.free⟩ : Block).csize
          + extSum (cs.takeWhile (·.free))
          = b.csize + extSum ((c :: cs).takeWhile (·.free)) := by
        rw [List.takeWhile_cons_of_pos (by simpa using hcf), extSum_cons]
        show b.csize + HEADER_SIZE + c.csize + _ = _
        rw [hextb c]
        omega
      have e2 : (⟨b.csize + HEADER_SIZE + c.csize, b.free⟩ : Block).free = b.free := rfl
      have e3 : base + extSum pre
            + extent ⟨b.csize + HEADER_SIZE + c.csize, b.free⟩
          = base + extSum pre + extent b + extent c := by
        show base + extSum pre + (HEADER_SIZE + (b.csize + HEADER_SIZE + c.csize)) = _
        rw [hextb b, hextb c]
        omega
      rw [e1, e2, e3] at hih
      rw [hih, List.dropWhile_cons_of_pos (by simpa using hcf),
        List.takeWhile_cons_of_pos (by simpa using hcf)]
      have hrn : runNodes (base + extSum pre + extent b) (c :: cs.takeWhile (·.free))
          = (base + extSum pre + extent b + HEADER_SIZE)
            :: runNodes (base + extSum pre + extent b + extent c)
                (cs.takeWhile (·.free)) := rfl
      rw [hrn, List.foldl_cons]
      have hnode : addrAt base (pre ++ b :: c :: cs) pre.length + HEADER_SIZE + b.csize
          + HEADER_SIZE = base + extSum pre + extent b + HEADER_SIZE := by
        rw [haddr, hextb b]
        omega
      rw [hnode]
    · simp only [hcf, if_false]
      have htw : (c :: cs).takeWhile (·.free) = [] :=
        List.takeWhile_cons_of_neg (by simpa using hcf)
      have hdw : (c :: cs).dropWhile (·.free) = c :: cs :=
        List.dropWhile_cons_of_neg (by simpa using hcf)
      rw [htw, hdw]
      simp [extSum, runNodes]

/-- Claim C7: the allocation scan runs coalesce-forward before attempting
placement on every visited node (first conjunct: one visit of the walk is
exactly merge_subsequent_nodes followed by try_place on the merged state),
and coalesce-forward performs exactly the described loop (second conjunct):
starting from the block at B = base + extSum pre holding the visited node,
it absorbs the maximal run of free blocks immediately following it, each
absorption removing that node of the block from the freelist and extending
the content size by HEADER_SIZE plus the absorbed content size, stopping at
the heap end (suf exhausted) or at the first occupied block (dropWhile). -/
theorem C7_coalesce_forward_characterisation :
    (∀ (s : St) (p obj_size obj_align fuel : Nat),
        walk_loop obj_size obj_align s p (fuel + 1)
          = match try_place (merge_subsequent_nodes s p) (p - HEADER_SIZE)
              obj_size obj_align with
            | (some obj, s2) => (some obj, s2)
            | (none, s2) =>
              match next_after s2.fl p with
              | some q => walk_loop obj_size obj_align s2 q fuel
              | none => (none, s2))
      ∧ (∀ (base : Nat) (pre : List Block) (b : Block) (suf : List Block)
            (fl : List Nat),
          merge_subsequent_nodes ⟨base, pre ++ b :: suf, fl⟩
              (base + extSum pre + HEADER_SIZE)
            = ⟨base,
                pre ++ ⟨b.csize + extSum (suf.takeWhile (·.free)), b.free⟩
                  :: suf.dropWhile (·.free),
                (runNodes (base + extSum pre + extent b)
                  (suf.takeWhile (·.free))).foldl List.erase fl⟩) := by
  constructor
  · intro s p obj_size obj_align fuel
    rfl
  · intro base pre b suf fl
    unfold merge_subsequent_nodes
    have heq : base + extSum pre + HEADER_SIZE - HEADER_SIZE = base + extSum pre := by
      omega
    have hidx : blockIdxAt base (pre ++ b :: suf)
        (base + extSum pre + HEADER_SIZE - HEADER_SIZE) = some pre.length := by
      rw [heq, ← addrAt_middle base pre b suf]
      exact blockIdxAt_addrAt (by simp)
    simp only [hidx]
    exact merge_loop_char base pre suf b fl _ (by simp [List.length_append]; omega)

lemma getElem?_some_lt {α : Type} {l : List α} {i : Nat} {x : α}
    (h : l[i]? = some x) : i < l.length := by
  by_contra hcon
  rw [List.getElem?_eq_none (by omega)] at h
  cases h

/-- Derivation used by both coalescing loops: the block found by walking the
partition to the address just past block i is block i + 1. -/
lemma next_idx_eq {s : St} {i j : Nat} {b : Block}
    (hb : s.blocks[i]? = some b)
    (hj : blockIdxAt s.base s.blocks
      (addrAt s.base s.blocks i + HEADER_SIZE + b.csize) = some j) :
    j = i + 1 := by
  obtain ⟨hjlen, hjaddr⟩ := blockIdxAt_some hj
  have hi : i < s.blocks.length := getElem?_some_lt hb
  have hnext : addrAt s.base s.blocks i + HEADER_SIZE + b.csize
      = addrAt s.base s.blocks (i + 1) := by
    rw [addrAt_succ hb]
    show _ = _ + (HEADER_SIZE + b.csize)
    omega
  exact addrAt_inj (le_of_lt hjlen) (show i + 1 ≤ s.blocks.length by omega)
    (by rw [hjaddr, hnext])

lemma take_of_shaped {bs : List Block} {i : Nat} (x : Block) (hi : i < bs.length) :
    (bs.take i ++ x :: bs.drop (i + 2)).take i = bs.take i :=
  List.take_left' (by simp [List.length_take]; omega)

/-- The coalescing loop of merge_subsequent_nodes preserves every occupied
block: same base, same start address, still occupied, content size only
growing. -/
lemma merge_loop_preserves_occupied :
    ∀ (fuel : Nat) (s : St) (i A C : Nat),
      blockAt s A = some ⟨C, false⟩ →
      (merge_loop s i fuel).base = s.base
        ∧ ∃ C2, C ≤ C2 ∧ blockAt (merge_loop s i fuel) A = some ⟨C2, false⟩ := by
  intro fuel
  induction fuel with
  | zero => exact fun s i A C hA => ⟨rfl, C, le_rfl, hA⟩
  | succ f ih =>
    intro s i A C hA
    simp only [merge_loop]
    split
    next => exact ⟨rfl, C, le_rfl, hA⟩
    next b hb =>
      split
      next => exact ⟨rfl, C, le_rfl, hA⟩
      next hne =>
        split
        next => exact ⟨rfl, C, le_rfl, hA⟩
        next j hj =>
          split
          next => exact ⟨rfl, C, le_rfl, hA⟩
          next c hc =>
            split
            next hcf =>
              have hji : j = i + 1 := next_idx_eq hb hj
              subst hji
              have hi : i < s.blocks.length := getElem?_some_lt hb
              have hshape := @replace_erase_shape s.blocks i
                ⟨b.csize + HEADER_SIZE + c.csize, b.free⟩ hi
              rw [hshape]
              have hbC : b.free = false ∨ True := Or.inr trivial
              obtain ⟨C1, hC1, hat1⟩ := merge_step_preserves hb hc
                (by simpa using hcf) hA
              obtain ⟨hbase, C2, hC2, hat2⟩ := ih
                ⟨s.base, s.blocks.take i
                  ++ ⟨b.csize + HEADER_SIZE + c.csize, b.free⟩ :: s.blocks.drop (i + 2),
                  s.fl.erase (addrAt s.base s.blocks i + HEADER_SIZE + b.csize
                    + HEADER_SIZE)⟩
                i A C1 hat1
              exact ⟨hbase, C2, le_trans hC1 hC2, hat2⟩
            next => exact ⟨rfl, C, le_rfl, hA⟩

lemma merge_subsequent_nodes_preserves_occupied {s : St} {p A C : Nat}
    (hA : blockAt s A = some ⟨C, false⟩) :
    (merge_subsequent_nodes s p).base = s.base
      ∧ ∃ C2, C ≤ C2
        ∧ blockAt (merge_subsequent_nodes s p) A = some ⟨C2, false⟩ := by
  unfold merge_subsequent_nodes
  split
  next => exact ⟨rfl, C, le_rfl, hA⟩
  next i hi => exact merge_loop_preserves_occupied _ s i A C hA

lemma try_place_none {s : St} {bs os al : Nat} {s2 : St}
    (h : try_place s bs os al = (none, s2)) : s2 = s := by
  simp only [try_place] at h
  split at h
  next => cases h; rfl
  next i hi =>
    split at h
    next => cases h; rfl
    next b hb =>
      split at h
      next => cases h; rfl
      next obj hobj =>
        split at h
        next p hp =>
          split at h
          next => cases h
          next => cases h; rfl
        next => cases h; rfl

lemma grow_and_place_none {s : St} {os al : Nat} {g : Nat → Option Nat} {s2 : St}
    (h : grow_and_place s os al g = (none, s2)) : s2 = s := by
  simp only [grow_and_place] at h
  split at h
  next => cases h; rfl
  next obj hobj =>
    split at h
    next => cases h; rfl
    next oe hoe =>
      split at h
      next => cases h; rfl
      next granted hg => cases h

lemma walk_loop_none_preserves :
    ∀ (fuel : Nat) (s : St) (p os al : Nat) (s2 : St) (A C : Nat),
      walk_loop os al s p fuel = (none, s2) →
      blockAt s A = some ⟨C, false⟩ →
      s2.base = s.base ∧ ∃ C2, C ≤ C2 ∧ blockAt s2 A = some ⟨C2, false⟩ := by
  intro fuel
  induction fuel with
  | zero =>
    intro s p os al s2 A C h hA
    cases h
    exact ⟨rfl, C, le_rfl, hA⟩
  | succ f ih =>
    intro s p os al s2 A C h hA
    simp only [walk_loop] at h
    obtain ⟨hbase1, C1, hC1, hat1⟩ :=
      @merge_subsequent_nodes_preserves_occupied s p A C hA
    split at h
    next obj s3 htp => cases h
    next s3 htp =>
      have hs3 : s3 = merge_subsequent_nodes s p := try_place_none htp
      subst hs3
      split at h
      next q hq =>
        obtain ⟨hbase2, C2, hC2, hat2⟩ := ih _ q os al s2 A C1 h hat1
        exact ⟨by rw [hbase2, hbase1], C2, le_trans hC1 hC2, hat2⟩
      next =>
        cases h
        exact ⟨hbase1, C1, hC1, hat1⟩

lemma place_in_first_none_preserves {s : St} {os al : Nat} {s2 : St} {A C : Nat}
    (h : place_in_first_free_block s os al = (none, s2))
    (hA : blockAt s A = some ⟨C, false⟩) :
    s2.base = s.base ∧ ∃ C2, C ≤ C2 ∧ blockAt s2 A = some ⟨C2, false⟩ := by
  unfold place_in_first_free_block at h
  split at h
  next =>
    cases h
    exact ⟨rfl, C, le_rfl, hA⟩
  next p hp => exact walk_loop_none_preserves _ s p os al s2 A C h hA

lemma rm_alloc_none_preserves {s : St} {size align : Nat} {g : Nat → Option Nat}
    {s2 : St} {A C : Nat}
    (h : rm_alloc s size align g = (none, s2))
    (hA : blockAt s A = some ⟨C, false⟩) :
    s2.base = s.base ∧ ∃ C2, C ≤ C2 ∧ blockAt s2 A = some ⟨C2, false⟩ := by
  unfold rm_alloc at h
  split at h
  next => cases h; exact ⟨rfl, C, le_rfl, hA⟩
  next os al hlay =>
    split at h
    next p s1 hw => cases h
    next s1 hw =>
      have hgrow : s2 = s1 := grow_and_place_none h
      subst hgrow
      exact place_in_first_none_preserves hw hA

lemma try_adjust_loop_preserves :
    ∀ (fuel : Nat) (s : St) (i nos nbe : Nat) (s2 : St) (A C : Nat),
      try_adjust_loop (addrAt s.base s.blocks i + HEADER_SIZE) nos nbe s i fuel
        = (false, s2) →
      blockAt s A = some ⟨C, false⟩ →
      s2.base = s.base ∧ ∃ C2, C ≤ C2 ∧ blockAt s2 A = some ⟨C2, false⟩ := by
  intro fuel
  induction fuel with
  | zero =>
    intro s i nos nbe s2 A C h hA
    cases h
    exact ⟨rfl, C, le_rfl, hA⟩
  | succ f ih =>
    intro s i nos nbe s2 A C h hA
    simp only [try_adjust_loop] at h
    split at h
    next => cases h; exact ⟨rfl, C, le_rfl, hA⟩
    next b hb =>
      split at h
      next => cases h
      next hlt =>
        split at h
        next => cases h; exact ⟨rfl, C, le_rfl, hA⟩
        next hne =>
          split at h
          next => cases h; exact ⟨rfl, C, le_rfl, hA⟩
          next j hj =>
            split at h
            next => cases h; exact ⟨rfl, C, le_rfl, hA⟩
            next c hc =>
              split at h
              next hcf =>
                have hji : j = i + 1 := next_idx_eq hb hj
                subst hji
                have hi : i < s.blocks.length := getElem?_some_lt hb
                have hshape := @replace_erase_shape s.blocks i
                  ⟨b.csize + HEADER_SIZE + c.csize, b.free⟩ hi
                rw [hshape] at h
                obtain ⟨C1, hC1, hat1⟩ := merge_step_preserves hb hc
                  (by simpa using hcf) hA
                have haddr_same : addrAt s.base
                    (s.blocks.take i
                      ++ ⟨b.csize + HEADER_SIZE + c.csize, b.free⟩
                        :: s.blocks.drop (i + 2)) i
                    = addrAt s.base s.blocks i := by
                  unfold addrAt
                  rw [take_of_shaped _ hi]
                rw [← haddr_same] at h
                obtain ⟨hbase, C2, hC2, hat2⟩ := ih
                  ⟨s.base,
                    s.blocks.take i
                      ++ ⟨b.csize + HEADER_SIZE + c.csize, b.free⟩
                        :: s.blocks.drop (i + 2),
                    s.fl.erase (addrAt s.base
                      (s.blocks.take i
                        ++ ⟨b.csize + HEADER_SIZE + c.csize, b.free⟩
                          :: s.blocks.drop (i + 2)) i
                      + HEADER_SIZE + b.csize + HEADER_SIZE)⟩
                  i nos nbe s2 A C1 h hat1
                exact ⟨hbase, C2, le_trans hC1 hC2, hat2⟩
              next => cases h; exact ⟨rfl, C, le_rfl, hA⟩

lemma try_adjust_false_preserves {s : St} {bs nos : Nat} {s2 : St} {A C : Nat}
    (h : try_adjust s bs nos = (false, s2))
    (hA : blockAt s A = some ⟨C, false⟩) :
    s2.base = s.base ∧ ∃ C2, C ≤ C2 ∧ blockAt s2 A = some ⟨C2, false⟩ := by
  simp only [try_adjust] at h
  split at h
  next => cases h; exact ⟨rfl, C, le_rfl, hA⟩
  next nbe hnbe =>
    split at h
    next => cases h; exact ⟨rfl, C, le_rfl, hA⟩
    next i hidx =>
      obtain ⟨-, haddr⟩ := blockIdxAt_some hidx
      rw [show bs + HEADER_SIZE = addrAt s.base s.blocks i + HEADER_SIZE from
        by rw [haddr]] at h
      exact try_adjust_loop_preserves _ s i nos nbe s2 A C h hA

lemma blockAt_some_elim {s : St} {A : Nat} {b : Block} (h : blockAt s A = some b) :
    ∃ i, blockIdxAt s.base s.blocks A = some i ∧ s.blocks[i]? = some b := by
  unfold blockAt blockAtL at h
  split at h
  next i hi => exact ⟨i, hi, h⟩
  next => cases h

/-- Claim C3 (amended): when reallocate fails, the pointer still addresses
a valid occupied block at the same address: the tag is untouched and the
content size can only have grown (by the forward merges of try_adjust and
of the allocation scan, whose absorbed free blocks leave the freelist). -/
theorem C3_failed_realloc_block_remains_valid :
    ∀ (s : St) (p sz al nsz : Nat) (g : Nat → Option Nat) (s2 : St) (C : Nat),
      blockAt s (p - HEADER_SIZE) = some ⟨C, false⟩ →
      rm_realloc s p sz al nsz g = (none, s2) →
      s2.base = s.base
        ∧ ∃ C2, C ≤ C2 ∧ blockAt s2 (p - HEADER_SIZE) = some ⟨C2, false⟩ := by
  intro s p sz al nsz g s2 C hA h
  simp only [rm_realloc] at h
  split at h
  next =>
    cases h
    exact ⟨rfl, C, le_rfl, hA⟩
  next n hn =>
    split at h
    next s1 hta => cases h
    next s1 hta =>
      obtain ⟨hbase1, C1, hC1, hat1⟩ := try_adjust_false_preserves hta hA
      split at h
      next q s3 halloc => cases h
      next s3 halloc =>
        cases h
        obtain ⟨hbase2, C2, hC2, hat2⟩ := rm_alloc_none_preserves halloc hat1
        exact ⟨by rw [hbase2, hbase1], C2, le_trans hC1 hC2, hat2⟩

/-- Witness for C3: the amended statement applied to the concrete failing
reallocation of the counterexample. -/
theorem C3_failed_realloc_block_remains_valid_witness :
    (rm_realloc (run init8 [.alloc 16 1 grantExact, .alloc 16 1 grantExact, .dealloc 40])
        16 16 1 64 grantNone).2.base
      = (run init8 [.alloc 16 1 grantExact, .alloc 16 1 grantExact, .dealloc 40]).base
    ∧ ∃ C2, 16 ≤ C2
      ∧ blockAt (rm_realloc
          (run init8 [.alloc 16 1 grantExact, .alloc 16 1 grantExact, .dealloc 40])
          16 16 1 64 grantNone).2 (16 - HEADER_SIZE) = some ⟨C2, false⟩ :=
  C3_failed_realloc_block_remains_valid
    (run init8 [.alloc 16 1 grantExact, .alloc 16 1 grantExact, .dealloc 40])
    16 16 1 64 grantNone _ 16 (by decide) (by decide)

/-- Claim C2: shrink-in-place. For a pointer p to an occupied block of
content size C, any reallocation whose augmented new size fits in C
succeeds through try_adjust and returns p unchanged. -/
theorem C2_shrink_in_place_returns_same_pointer :
    ∀ (s : St) (p sz al nsz n C : Nat) (g : Nat → Option Nat),
      heapEnd s ≤ UMAX →
      HEADER_SIZE ≤ p →
      blockAt s (p - HEADER_SIZE) = some ⟨C, false⟩ →
      augment_size nsz = some n →
      n ≤ C →
      (rm_realloc s p sz al nsz g).1 = some p := by
  intro s p sz al nsz n C g hEnd hp hA hn hnC
  obtain ⟨i, hidx, hget⟩ := blockAt_some_elim hA
  obtain ⟨hilen, haddr⟩ := blockIdxAt_some hidx
  have hhe : heapEnd s = s.base + extSum s.blocks := rfl
  have hH : HEADER_SIZE = 8 := rfl
  have hext : extent ⟨C, false⟩ = HEADER_SIZE + C := rfl
  have hend : (p - HEADER_SIZE) + extent ⟨C, false⟩ ≤ s.base + extSum s.blocks := by
    have hd := extSum_decompose hget
    have : addrAt s.base s.blocks i = s.base + extSum (s.blocks.take i) := rfl
    omega
  have hck : checked_add (p - HEADER_SIZE + HEADER_SIZE) n
      = some (p - HEADER_SIZE + HEADER_SIZE + n) :=
    checked_add_of_le (by rw [hhe] at hEnd; rw [hext] at hend; omega)
  obtain ⟨f, hf⟩ : ∃ f, s.blocks.length = f + 1 := ⟨s.blocks.length - 1, by omega⟩
  have hta1 : (try_adjust s (p - HEADER_SIZE) n).1 = true := by
    simp only [try_adjust, hck, hidx, hf, try_adjust_loop, hget]
    rw [if_pos (by omega)]
  cases hta2 : try_adjust s (p - HEADER_SIZE) n with
  | mk tf s1 =>
    rw [hta2] at hta1
    simp only at hta1
    subst hta1
    simp only [rm_realloc, hn, hta2]

/-- Witness for C2: shrinking an occupied block of content size 16 at
address 8 to requested size 1 returns the same pointer 16. -/
theorem C2_shrink_in_place_returns_same_pointer_witness :
    (rm_realloc ⟨8, [⟨16, false⟩], []⟩ 16 16 1 1 grantNone).1 = some 16 :=
  C2_shrink_in_place_returns_same_pointer ⟨8, [⟨16, false⟩], []⟩ 16 16 1 1 16 16
    grantNone (by decide) (by decide) (by decide) (by decide) (by decide)

lemma align_offset_aligned {p a : Nat} (ha : 0 < a) :
    (p + align_offset p a) % a = 0 := by
  unfold align_offset
  by_cases hpa : p % a = 0
  · rw [hpa, Nat.sub_zero, Nat.mod_self, Nat.add_zero]
    exact hpa
  · have hlt : p % a < a := Nat.mod_lt _ ha
    have hmod : (a - p % a) % a = a - p % a := Nat.mod_eq_of_lt (by omega)
    rw [hmod]
    have hd := Nat.div_add_mod p a
    have hq : p + (a - p % a) = a * (p / a) + a := by omega
    rw [hq, show a * (p / a) + a = a * (p / a + 1) from by ring]
    exact Nat.mul_mod_right _ _

lemma align_offset_le {p a r : Nat} (ha : 0 < a) (hpr : p ≤ r) (hr : r % a = 0) :
    p + align_offset p a ≤ r := by
  unfold align_offset
  by_cases hpa : p % a = 0
  · rw [hpa, Nat.sub_zero, Nat.mod_self, Nat.add_zero]
    exact hpr
  · have hlt : p % a < a := Nat.mod_lt _ ha
    have hmod : (a - p % a) % a = a - p % a := Nat.mod_eq_of_lt (by omega)
    rw [hmod]
    obtain ⟨k, rfl⟩ : ∃ k, r = a * k := ⟨r / a, by have := Nat.div_add_mod r a; omega⟩
    have hd := Nat.div_add_mod p a
    have hdiv : p / a < k := by
      by_contra hcon
      push_neg at hcon
      have : a * k ≤ a * (p / a) := Nat.mul_le_mul_left a hcon
      omega
    have : a * (p / a + 1) ≤ a * k := Nat.mul_le_mul_left a hdiv
    have hexp : a * (p / a + 1) = a * (p / a) + a := by ring
    omega

lemma find_aligned_some {p a q : Nat} (ha : 0 < a) (h : find_aligned p a = some q) :
    q = p + align_offset p a ∧ q % a = 0 ∧ p ≤ q ∧ q ≤ UMAX := by
  unfold find_aligned at h
  split at h
  · cases h
  next hno =>
    cases h
    refine ⟨rfl, align_offset_aligned ha, Nat.le_add_right _ _, ?_⟩
    by_cases hp0 : p = 0
    · subst hp0
      have hz : align_offset 0 a = 0 := by
        unfold align_offset
        simp
      omega
    · omega

lemma find_aligned_none {p a r : Nat} (ha : 0 < a) (h : find_aligned p a = none)
    (hpr : p ≤ r) (hr : r % a = 0) (hru : r ≤ UMAX) : False := by
  unfold find_aligned at h
  split at h
  next hno =>
    have := align_offset_le ha hpr hr
    omega
  · cases h

/-- Result facts of the find_place scan: the returned address is strictly
past block_start, aligned, and its gap from block_start is HEADER_SIZE or
at least HEADER_SIZE + BLOCK_MIN_SIZE. -/
lemma find_place_loop_facts {B a : Nat} (ha : 0 < a) :
    ∀ (fuel obj p : Nat),
      (obj = B ∨ (B < obj ∧ obj % a = 0)) →
      find_place_loop B a obj fuel = some p →
      B < p ∧ p % a = 0
        ∧ (p - B = HEADER_SIZE ∨ HEADER_SIZE + BLOCK_MIN_SIZE ≤ p - B) := by
  intro fuel
  induction fuel with
  | zero => intro obj p hinv h; cases h
  | succ f ih =>
    intro obj p hinv h
    have hH : HEADER_SIZE = 8 := rfl
    have hM : BLOCK_MIN_SIZE = 24 := rfl
    simp only [find_place_loop] at h
    split at h
    next hv =>
      cases h
      rcases hinv with rfl | ⟨hBo, hal⟩
      · rcases hv with h1 | h2
        · rw [hH] at h1
          omega
        · rw [hH, hM] at h2
          omega
      · exact ⟨hBo, hal, hv⟩
    next hv =>
      split at h
      next => cases h
      next =>
        split at h
        next q hfa =>
          obtain ⟨-, hqal, hqge, -⟩ := find_aligned_some ha hfa
          refine ih q p (Or.inr ⟨?_, hqal⟩) h
          rcases hinv with rfl | ⟨hBo, -⟩ <;> omega
        next => cases h

lemma find_place_some_facts {B a p : Nat} (ha : 0 < a)
    (h : find_place B a = some p) :
    B < p ∧ p % a = 0
      ∧ (p - B = HEADER_SIZE ∨ HEADER_SIZE + BLOCK_MIN_SIZE ≤ p - B) :=
  find_place_loop_facts ha _ B p (Or.inl rfl) h

lemma decompose_one {bs : List Block} {i : Nat} {b : Block} (h : bs[i]? = some b) :
    bs = bs.take i ++ b :: bs.drop (i + 1) := by
  conv_lhs => rw [← List.take_append_drop (i + 1) bs]
  rw [List.take_succ, h]
  simp

/-- The blocks written by place_raw start with the left padding (when the
gap from block_start differs from HEADER_SIZE) followed by the occupied
object block, whose content size is at least obj_size whenever the object
fits in the range. -/
lemma place_pieces_no_left {B E obj os : Nat} (hL : obj - B = HEADER_SIZE)
    (hfit : obj + os ≤ E) :
    ∃ C right, os ≤ C
      ∧ (place_pieces B E obj os).newBlocks = ⟨C, false⟩ :: right := by
  unfold place_pieces
  simp only [hL, ne_eq, not_true_eq_false, if_false, ite_false, List.nil_append]
  by_cases hR : BLOCK_MIN_SIZE ≤ E - (obj + os)
  · exact ⟨os, _, le_rfl, by rw [if_pos hR, if_pos hR]⟩
  · refine ⟨E - obj, _, by omega, by rw [if_neg hR, if_neg hR]⟩

lemma place_pieces_left {B E obj os : Nat} (hL : ¬(obj - B = HEADER_SIZE))
    (hfit : obj + os ≤ E) :
    ∃ C right, os ≤ C
      ∧ (place_pieces B E obj os).newBlocks
        = ⟨obj - B - 2 * HEADER_SIZE, true⟩ :: ⟨C, false⟩ :: right := by
  unfold place_pieces
  simp only [hL, ne_eq, not_false_iff, if_true, ite_true, List.cons_append,
    List.nil_append]
  by_cases hR : BLOCK_MIN_SIZE ≤ E - (obj + os)
  · exact ⟨os, _, le_rfl, by rw [if_pos hR, if_pos hR]⟩
  · refine ⟨E - obj, _, by omega, by rw [if_neg hR, if_neg hR]⟩

lemma merge_loop_base : ∀ (fuel : Nat) (s : St) (i : Nat),
    (merge_loop s i fuel).base = s.base := by
  intro fuel
  induction fuel with
  | zero => intro s i; rfl
  | succ f ih =>
    intro s i
    simp only [merge_loop]
    split
    next => rfl
    next b hb =>
      split
      next => rfl
      next =>
        split
        next => rfl
        next j hj =>
          split
          next => rfl
          next c hc =>
            split
            next => exact ih _ i
            next => rfl

lemma merge_subsequent_nodes_base (s : St) (p : Nat) :
    (merge_subsequent_nodes s p).base = s.base := by
  unfold merge_subsequent_nodes
  split
  next => rfl
  next i hi => exact merge_loop_base _ s i

lemma try_place_base (s : St) (bs os al : Nat) :
    (try_place s bs os al).2.base = s.base := by
  simp only [try_place]
  split
  next => rfl
  next i hi =>
    split
    next => rfl
    next b hb =>
      split
      next => rfl
      next obj hobj =>
        split
        next p hp =>
          split
          next => rfl
          next => rfl
        next => rfl

lemma walk_loop_base : ∀ (fuel : Nat) (s : St) (p os al : Nat),
    (walk_loop os al s p fuel).2.base = s.base := by
  intro fuel
  induction fuel with
  | zero => intro s p os al; rfl
  | succ f ih =>
    intro s p os al
    simp only [walk_loop]
    split
    next obj s2 htp =>
      have h1 := try_place_base (merge_subsequent_nodes s p) (p - HEADER_SIZE) os al
      rw [htp] at h1
      rw [show ((some obj, s2) : Option Nat × St).2.base = s2.base from rfl]
      rw [h1, merge_subsequent_nodes_base]
    next s2 htp =>
      have h1 := try_place_base (merge_subsequent_nodes s p) (p - HEADER_SIZE) os al
      rw [htp] at h1
      split
      next q hq =>
        rw [ih s2 q os al, h1, merge_subsequent_nodes_base]
      next =>
        rw [show ((none, s2) : Option Nat × St).2.base = s2.base from rfl]
        rw [h1, merge_subsequent_nodes_base]

lemma place_in_first_base (s : St) (os al : Nat) :
    (place_in_first_free_block s os al).2.base = s.base := by
  unfold place_in_first_free_block
  split
  next => rfl
  next p hp => exact walk_loop_base _ s p os al

lemma grow_and_place_base (s : St) (os al : Nat) (g : Nat → Option Nat) :
    (grow_and_place s os al g).2.base = s.base := by
  simp only [grow_and_place]
  split
  next => rfl
  next obj hobj =>
    split
    next => rfl
    next oe hoe =>
      split
      next => rfl
      next granted hg => rfl

lemma rm_alloc_base (s : St) (size align : Nat) (g : Nat → Option Nat) :
    (rm_alloc s size align g).2.base = s.base := by
  simp only [rm_alloc]
  split
  next => rfl
  next os al hlay =>
    split
    next p s1 hw =>
      have h1 := place_in_first_base s os al
      rw [hw] at h1
      exact h1
    next s1 hw =>
      have h1 := place_in_first_base s os al
      rw [hw] at h1
      rw [grow_and_place_base s1 os al g]
      exact h1

/-- Facts about a successful try_place: the result pointer is strictly past
the block start, aligned, and addresses an occupied block (in the result
state) whose content size accommodates the requested size. -/
lemma try_place_some_facts {s : St} {bs os al obj : Nat} {s2 : St} (ha : 0 < al)
    (h : try_place s bs os al = (some obj, s2)) :
    s2.base = s.base ∧ bs < obj ∧ obj % al = 0
      ∧ ∃ C, os ≤ C ∧ blockAt s2 (obj - HEADER_SIZE) = some ⟨C, false⟩ := by
  have hH : HEADER_SIZE = 8 := rfl
  have hM : BLOCK_MIN_SIZE = 24 := rfl
  simp only [try_place] at h
  split at h
  next => cases h
  next i hidx =>
    split at h
    next => cases h
    next b hb =>
      split at h
      next => cases h
      next obj0 hfp =>
        split at h
        next p' hck =>
          split at h
          next htrue =>
            cases h
            obtain ⟨hilen, haddr⟩ := blockIdxAt_some hidx
            obtain ⟨hBlt, halg, hdist⟩ := find_place_some_facts ha hfp
            rw [hH, hM] at hdist
            have hp' : p' = obj + os := checked_add_some hck
            have hfit : obj + os ≤ bs + HEADER_SIZE + b.csize := by omega
            have htake : s.base + extSum (s.blocks.take i) = bs := haddr
            refine ⟨rfl, hBlt, halg, ?_⟩
            have hge : s.base + extSum (s.blocks.take i) ≤ obj - HEADER_SIZE := by
              rw [htake, hH]
              omega
            show ∃ C, os ≤ C
              ∧ blockAtL s.base
                  (replaceIdx s.blocks i
                    (place_pieces bs (bs + HEADER_SIZE + b.csize) obj os).newBlocks)
                  (obj - HEADER_SIZE) = some ⟨C, false⟩
            unfold replaceIdx
            rw [List.append_assoc, blockAtL_append_hi hge, htake]
            by_cases hL : obj - bs = HEADER_SIZE
            · obtain ⟨C, right, hosC, hnew⟩ := place_pieces_no_left hL hfit
              rw [hnew, List.cons_append]
              have hA_eq : obj - HEADER_SIZE = bs := by
                rw [hH] at hL ⊢
                omega
              rw [hA_eq, blockAtL_cons_self]
              exact ⟨C, hosC, rfl⟩
            · obtain ⟨C, right, hosC, hnew⟩ := place_pieces_left hL hfit
              rw [hH] at hL
              have hd32 : 32 ≤ obj - bs := by
                rcases hdist with h1 | h2
                · exact absurd h1 hL
                · omega
              rw [hnew, List.cons_append]
              have hsplit :
                  (⟨obj - bs - 2 * HEADER_SIZE, true⟩ : Block)
                      :: (⟨C, false⟩ :: right ++ s.blocks.drop (i + 1))
                    = [(⟨obj - bs - 2 * HEADER_SIZE, true⟩ : Block)]
                      ++ ⟨C, false⟩ :: (right ++ s.blocks.drop (i + 1)) := by
                simp
              rw [hsplit]
              have hx : extSum [(⟨obj - bs - 2 * HEADER_SIZE, true⟩ : Block)]
                  = HEADER_SIZE + (obj - bs - 2 * HEADER_SIZE) := by
                simp [extSum, extent]
              have hge2 : bs + extSum [(⟨obj - bs - 2 * HEADER_SIZE, true⟩ : Block)]
                  ≤ obj - HEADER_SIZE := by
                rw [hx, hH]
                omega
              rw [blockAtL_append_hi hge2]
              have hbase2 : bs + extSum [(⟨obj - bs - 2 * HEADER_SIZE, true⟩ : Block)]
                  = obj - HEADER_SIZE := by
                rw [hx, hH]
                omega
              rw [hbase2, blockAtL_cons_self]
              exact ⟨C, hosC, rfl⟩
          next => cases h
        next => cases h

/-- Facts about a successful grow-and-place. -/
lemma grow_and_place_some_facts {s : St} {os al : Nat} {g : Nat → Option Nat}
    {obj : Nat} {s2 : St} (ha : 0 < al) (hg : Conforming g)
    (h : grow_and_place s os al g = (some obj, s2)) :
    s2.base = s.base ∧ heapEnd s < obj ∧ obj % al = 0
      ∧ ∃ C, os ≤ C ∧ blockAt s2 (obj - HEADER_SIZE) = some ⟨C, false⟩ := by
  have hH : HEADER_SIZE = 8 := rfl
  have hM : BLOCK_MIN_SIZE = 24 := rfl
  simp only [grow_and_place] at h
  split at h
  next => cases h
  next obj0 hfp =>
    split at h
    next => cases h
    next oe hck =>
      split at h
      next => cases h
      next granted hgr =>
        cases h
        obtain ⟨hBlt, halg, hdist⟩ := find_place_some_facts ha hfp
        rw [hH, hM] at hdist
        have hoe : oe = obj + os := checked_add_some hck
        have hgranted : oe - heapEnd s ≤ granted := hg _ _ hgr
        have hfit : obj + os ≤ heapEnd s + granted := by omega
        refine ⟨rfl, hBlt, halg, ?_⟩
        have hge : s.base + extSum s.blocks ≤ obj - HEADER_SIZE := by
          have : heapEnd s = s.base + extSum s.blocks := rfl
          rw [hH]
          omega
        show ∃ C, os ≤ C
          ∧ blockAtL s.base
              (s.blocks
                ++ (place_pieces (heapEnd s) (heapEnd s + granted) obj os).newBlocks)
              (obj - HEADER_SIZE) = some ⟨C, false⟩
        rw [blockAtL_append_hi hge,
          show s.base + extSum s.blocks = heapEnd s from rfl]
        by_cases hL : obj - heapEnd s = HEADER_SIZE
        · obtain ⟨C, right, hosC, hnew⟩ := place_pieces_no_left hL hfit
          rw [hnew]
          have hA_eq : obj - HEADER_SIZE = heapEnd s := by
            rw [hH] at hL ⊢
            omega
          rw [hA_eq, blockAtL_cons_self]
          exact ⟨C, hosC, rfl⟩
        · obtain ⟨C, right, hosC, hnew⟩ := place_pieces_left hL hfit
          rw [hH] at hL
          have hd32 : 32 ≤ obj - heapEnd s := by
            rcases hdist with h1 | h2
            · exact absurd h1 hL
            · omega
          rw [hnew]
          have hsplit :
              (⟨obj - heapEnd s - 2 * HEADER_SIZE, true⟩ : Block)
                  :: ⟨C, false⟩ :: right
                = [(⟨obj - heapEnd s - 2 * HEADER_SIZE, true⟩ : Block)]
                  ++ ⟨C, false⟩ :: right := by
            simp
          rw [hsplit]
          have hx : extSum [(⟨obj - heapEnd s - 2 * HEADER_SIZE, true⟩ : Block)]
              = HEADER_SIZE + (obj - heapEnd s - 2 * HEADER_SIZE) := by
            simp [extSum, extent]
          have hge2 : heapEnd s
                + extSum [(⟨obj - heapEnd s - 2 * HEADER_SIZE, true⟩ : Block)]
              ≤ obj - HEADER_SIZE := by
            rw [hx, hH]
            omega
          rw [blockAtL_append_hi hge2]
          have hbase2 : heapEnd s
                + extSum [(⟨obj - heapEnd s - 2 * HEADER_SIZE, true⟩ : Block)]
              = obj - HEADER_SIZE := by
            rw [hx, hH]
            omega
          rw [hbase2, blockAtL_cons_self]
          exact ⟨C, hosC, rfl⟩

lemma walk_loop_some_facts : ∀ (fuel : Nat) (s : St) (p os al obj : Nat) (s2 : St),
    0 < al →
    walk_loop os al s p fuel = (some obj, s2) →
    s2.base = s.base ∧ 0 < obj ∧ obj % al = 0
      ∧ ∃ C, os ≤ C ∧ blockAt s2 (obj - HEADER_SIZE) = some ⟨C, false⟩ := by
  intro fuel
  induction fuel with
  | zero => intro s p os al obj s2 ha h; cases h
  | succ f ih =>
    intro s p os al obj s2 ha h
    simp only [walk_loop] at h
    split at h
    next obj s3 htp =>
      cases h
      obtain ⟨hbase, hBlt, halg, C, hC, hAt⟩ := try_place_some_facts ha htp
      refine ⟨by rw [hbase, merge_subsequent_nodes_base], by omega, halg, C, hC, hAt⟩
    next s3 htp =>
      have hs3 : s3 = merge_subsequent_nodes s p := try_place_none htp
      split at h
      next q hq =>
        obtain ⟨hbase, hpos, halg, hC⟩ := ih s3 q os al obj s2 ha h
        refine ⟨?_, hpos, halg, hC⟩
        rw [hbase, hs3, merge_subsequent_nodes_base]
      next => cases h

lemma rm_alloc_some_facts {s : St} {size align : Nat} {g : Nat → Option Nat}
    {p : Nat} {s2 : St} (hg : Conforming g)
    (h : rm_alloc s size align g = (some p, s2)) :
    ∃ osize, augment_size size = some osize
      ∧ s2.base = s.base ∧ 0 < p ∧ p % max align BLOCK_CONTENT_MIN_ALIGN = 0
      ∧ ∃ C, osize ≤ C ∧ blockAt s2 (p - HEADER_SIZE) = some ⟨C, false⟩ := by
  simp only [rm_alloc] at h
  split at h
  next => cases h
  next os al hlay =>
    obtain ⟨hos, hal⟩ : augment_size size = some os ∧ al = max align BLOCK_CONTENT_MIN_ALIGN := by
      unfold augment_layout at hlay
      split at hlay
      next n hn =>
        cases hlay
        exact ⟨hn, rfl⟩
      next => cases hlay
    have ha : 0 < al := by
      rw [hal]
      have : (BLOCK_CONTENT_MIN_ALIGN : Nat) = 8 := rfl
      omega
    subst hal
    split at h
    next p0 s1 hw =>
      cases h
      unfold place_in_first_free_block at hw
      split at hw
      next => cases hw
      next q hq =>
        obtain ⟨hbase, hpos, halg, hC⟩ := walk_loop_some_facts _ s q os _ p s2 ha hw
        exact ⟨os, hos, hbase, hpos, halg, hC⟩
    next s1 hw =>
      obtain ⟨hbase, hpos, halg, hC⟩ := grow_and_place_some_facts ha hg h
      have hb1 := place_in_first_base s os (max align BLOCK_CONTENT_MIN_ALIGN)
      rw [hw] at hb1
      exact ⟨os, hos, by rw [hbase]; exact hb1, by omega, halg, hC⟩

/-- Full characterisation of one run of the find_place scan: given that the
scanned address obj is B itself or an aligned address past B, that every
aligned address strictly between B and obj has already been found wanting,
and that the fuel covers the remaining address space, a some result is the
least suitable aligned address past B and a none result means no aligned
address past B within the address space is suitable. -/
lemma find_place_loop_char {B a : Nat} (ha : 0 < a) :
    ∀ (fuel obj : Nat),
      (obj = B ∨ (B < obj ∧ obj % a = 0)) →
      obj ≤ UMAX →
      (∀ q, B < q → q < obj → q % a = 0 →
        ¬(q - B = HEADER_SIZE ∨ HEADER_SIZE + BLOCK_MIN_SIZE ≤ q - B)) →
      UMAX + 1 - obj ≤ fuel →
      (∀ p, find_place_loop B a obj fuel = some p →
        B < p ∧ p ≤ UMAX ∧ p % a = 0
          ∧ (p - B = HEADER_SIZE ∨ HEADER_SIZE + BLOCK_MIN_SIZE ≤ p - B)
          ∧ ∀ q, B < q → q < p → q % a = 0 →
              ¬(q - B = HEADER_SIZE ∨ HEADER_SIZE + BLOCK_MIN_SIZE ≤ q - B))
        ∧ (find_place_loop B a obj fuel = none →
            ∀ q, B < q → q ≤ UMAX → q % a = 0 →
              ¬(q - B = HEADER_SIZE ∨ HEADER_SIZE + BLOCK_MIN_SIZE ≤ q - B)) := by
  intro fuel
  induction fuel with
  | zero =>
    intro obj hinv hou hskip hfuel
    exact absurd hou (by omega)
  | succ f ih =>
    intro obj hinv hou hskip hfuel
    have hH : HEADER_SIZE = 8 := rfl
    have hM : BLOCK_MIN_SIZE = 24 := rfl
    constructor
    · intro p h
      simp only [find_place_loop] at h
      split at h
      next hv =>
        cases h
        rcases hinv with rfl | ⟨hBo, hal⟩
        · rcases hv with h1 | h2
          · rw [hH] at h1; omega
          · rw [hH, hM] at h2; omega
        · exact ⟨hBo, hou, hal, hv, fun q hq1 hq2 => hskip q hq1 hq2⟩
      next hv =>
        split at h
        next => cases h
        next hobj =>
          split at h
          next next0 hfa =>
            obtain ⟨hnext_eq, hqal, hqge, hqle⟩ := find_aligned_some ha hfa
            have hskip2 : ∀ r, B < r → r < next0 → r % a = 0 →
                ¬(r - B = HEADER_SIZE ∨ HEADER_SIZE + BLOCK_MIN_SIZE ≤ r - B) := by
              intro r hr1 hr2 hr3
              by_cases heq : r = obj
              · subst heq; exact hv
              · rcases Nat.lt_or_ge r obj with hlt | hge
                · exact hskip r hr1 hlt hr3
                · exfalso
                  have hle := align_offset_le ha (show obj + 1 ≤ r by omega) hr3
                  omega
            refine (ih next0
              (Or.inr ⟨by rcases hinv with rfl | ⟨hb, -⟩ <;> omega, hqal⟩)
              hqle hskip2 (by omega)).1 p h
          next => cases h
    · intro h q hq1 hq2 hq3
      simp only [find_place_loop] at h
      split at h
      next => cases h
      next hv =>
        split at h
        next hUeq =>
          rcases Nat.lt_or_ge q obj with hlt | hge
          · exact hskip q hq1 hlt hq3
          · have hqobj : q = obj := by omega
            subst hqobj
            exact hv
        next hobj =>
          split at h
          next next0 hfa =>
            obtain ⟨hnext_eq, hqal, hqge, hqle⟩ := find_aligned_some ha hfa
            have hskip2 : ∀ r, B < r → r < next0 → r % a = 0 →
                ¬(r - B = HEADER_SIZE ∨ HEADER_SIZE + BLOCK_MIN_SIZE ≤ r - B) := by
              intro r hr1 hr2 hr3
              by_cases heq : r = obj
              · subst heq; exact hv
              · rcases Nat.lt_or_ge r obj with hlt | hge
                · exact hskip r hr1 hlt hr3
                · exfalso
                  have hle := align_offset_le ha (show obj + 1 ≤ r by omega) hr3
                  omega
            exact (ih next0
              (Or.inr ⟨by rcases hinv with rfl | ⟨hb, -⟩ <;> omega, hqal⟩)
              hqle hskip2 (by omega)).2 h q hq1 hq2 hq3
          next hfa =>
            rcases Nat.lt_or_ge q obj with hlt | hge
            · exact hskip q hq1 hlt hq3
            · by_cases heq : q = obj
              · subst heq; exact hv
              · exact absurd hfa
                  (fun hh => find_aligned_none ha hh (show obj + 1 ≤ q by omega) hq3 hq2)

/-- Claim C6: find_place(B, a), for a power-of-two alignment a and a block
start B inside the address space, returns some p exactly when p is the
least a-aligned address strictly past B whose distance from B is either
exactly HEADER_SIZE or at least HEADER_SIZE + BLOCK_MIN_SIZE (aligned
candidates violating both are skipped), and returns none exactly when no
a-aligned address past B within the address space satisfies that distance
condition. -/
theorem C6_find_place_characterisation (B a : Nat)
    (ha : isPow2 a) (hB : B ≤ UMAX) :
    (∀ p, find_place B a = some p ↔
        (B < p ∧ p ≤ UMAX ∧ p % a = 0
          ∧ (p - B = HEADER_SIZE ∨ HEADER_SIZE + BLOCK_MIN_SIZE ≤ p - B)
          ∧ ∀ q, B < q → q < p → q % a = 0 →
              ¬(q - B = HEADER_SIZE ∨ HEADER_SIZE + BLOCK_MIN_SIZE ≤ q - B)))
      ∧ (find_place B a = none ↔
          ∀ q, B < q → q ≤ UMAX → q % a = 0 →
            ¬(q - B = HEADER_SIZE ∨ HEADER_SIZE + BLOCK_MIN_SIZE ≤ q - B)) := by
  have ha0 : 0 < a := by
    obtain ⟨k, rfl⟩ := ha
    exact Nat.pos_pow_of_pos k (by norm_num)
  obtain ⟨hsome, hnone⟩ := find_place_loop_char ha0 (UMAX + 1) B (Or.inl rfl) hB
    (by intro q h1 h2 _; exact absurd h2 (by omega)) (by omega)
  constructor
  · intro p
    constructor
    · intro h
      exact hsome p h
    · intro hp
      cases hfp : find_place B a with
      | none =>
        exact absurd hp.2.2.2.1 (hnone hfp p hp.1 hp.2.1 hp.2.2.1)
      | some p2 =>
        have h2 := hsome p2 hfp
        have hpe : p2 = p := by
          rcases Nat.lt_trichotomy p2 p with hlt | heq | hgt
          · exact absurd h2.2.2.2.1 (hp.2.2.2.2 p2 h2.1 hlt h2.2.2.1)
          · exact heq
          · exact absurd hp.2.2.2.1 (h2.2.2.2.2 p hp.1 hgt hp.2.2.1)
        rw [hpe]
  · constructor
    · intro h
      exact hnone h
    · intro hall
      cases hfp : find_place B a with
      | none => rfl
      | some p =>
        have h2 := hsome p hfp
        exact absurd h2.2.2.2.1 (hall p h2.1 h2.2.1 h2.2.2.1)

/-- Witness for C6: from block start 8 with alignment 1, find_place returns
16, the least address at distance HEADER_SIZE, obtained by the backward
direction of the characterisation. -/
theorem C6_find_place_characterisation_witness : find_place 8 1 = some 16 :=
  ((C6_find_place_characterisation 8 1 ⟨0, rfl⟩ (by decide)).1 16).mpr
    ⟨by decide, by decide, by decide, Or.inl (by decide), by
      intro q h1 h2 _
      rw [show HEADER_SIZE = 8 from rfl, show BLOCK_MIN_SIZE = 24 from rfl]
      omega⟩

lemma pow2_dvd_max_align {a : Nat} (h : isPow2 a) :
    a ∣ max a BLOCK_CONTENT_MIN_ALIGN := by
  obtain ⟨k, rfl⟩ := h
  have h8 : (BLOCK_CONTENT_MIN_ALIGN : Nat) = 2 ^ 3 := rfl
  rcases le_total (2 ^ k) BLOCK_CONTENT_MIN_ALIGN with hle | hge
  · rw [max_eq_right hle, h8]
    refine pow_dvd_pow 2 ?_
    rw [h8] at hle
    exact (Nat.pow_le_pow_iff_right (by norm_num)).mp hle
  · rw [max_eq_left hge]

/-- Claim C9 (amended): a successful allocate(0, align) with a power-of-two
alignment and a conforming grower returns a non-null, align-aligned pointer
to an occupied block whose content size is at least
BLOCK_CONTENT_MIN_SIZE = augment_size 0 (it can be strictly larger when a
bigger free block is reused, see the counterexample); and from the empty
heap two successive allocate(0, 1) calls succeed and return the distinct
pointers 16 and 40. -/
theorem C9_zero_alloc_properties :
    (∀ (s : St) (a : Nat) (g : Nat → Option Nat) (p : Nat) (s2 : St),
        isPow2 a → Conforming g → rm_alloc s 0 a g = (some p, s2) →
        p ≠ 0 ∧ p % a = 0
          ∧ ∃ C, BLOCK_CONTENT_MIN_SIZE ≤ C
            ∧ blockAt s2 (p - HEADER_SIZE) = some ⟨C, false⟩)
      ∧ (rm_alloc init8 0 1 grantExact).1 = some 16
      ∧ (rm_alloc (rm_alloc init8 0 1 grantExact).2 0 1 grantExact).1 = some 40 := by
  refine ⟨?_, by decide, by decide⟩
  intro s a g p s2 hpow hg h
  obtain ⟨os, hos, hbase, hpos, halg, C, hC, hAt⟩ := rm_alloc_some_facts hg h
  have hos16 : os = 16 := by
    have h0 : augment_size 0 = some 16 := by decide
    rw [h0] at hos
    exact (Option.some_inj.mp hos).symm
  have hapos : 0 < a := by
    obtain ⟨k, rfl⟩ := hpow
    exact Nat.pos_pow_of_pos k (by norm_num)
  refine ⟨by omega, ?_, C,
    by rw [show (BLOCK_CONTENT_MIN_SIZE : Nat) = 16 from rfl]; omega, hAt⟩
  have hdvd1 : a ∣ max a BLOCK_CONTENT_MIN_ALIGN := pow2_dvd_max_align hpow
  have hdvd2 : max a BLOCK_CONTENT_MIN_ALIGN ∣ p := Nat.dvd_of_mod_eq_zero halg
  obtain ⟨c, hc⟩ := dvd_trans hdvd1 hdvd2
  rw [hc]
  exact Nat.mul_mod_right a c

/-- Witness for C9: the universal part applied to the first concrete
allocate(0, 1) from the empty heap, which returns pointer 16. -/
theorem C9_zero_alloc_properties_witness :
    (16 : Nat) ≠ 0 ∧ 16 % 1 = 0
      ∧ ∃ C, BLOCK_CONTENT_MIN_SIZE ≤ C
        ∧ blockAt (rm_alloc init8 0 1 grantExact).2 (16 - HEADER_SIZE)
          = some ⟨C, false⟩ :=
  C9_zero_alloc_properties.1 init8 1 grantExact 16 (rm_alloc init8 0 1 grantExact).2
    ⟨0, rfl⟩ conforming_grantExact (by decide)

end RustyMalloc
